import Mathlib

/-!
Verification of the nscope scope-matching core (src/main.go).

Go strings are modelled as lists of characters (`Str`); the byte-level and
rune-level views of a Go string coincide on all inputs exercised here.  Each
definition mirrors the corresponding Go function from src/main.go, or, for
the standard-library calls the repository makes (`strings.*`, `net.ParseIP`,
`net.SplitHostPort`, `net/url.Parse`, `golang.org/x/net/idna.ToASCII`),
the behaviour of that library function.
-/

set_option autoImplicit false

namespace NScope

/-- Go strings, modelled as lists of characters. -/
abbrev Str := List Char

/-- Coerce a Lean string literal to the model's string type. -/
def str (s : String) : Str := s.data

/-- `unicode.IsSpace`: the White_Space code points (used by
`strings.TrimSpace` and `strings.Fields`). -/
def isSpaceGo (c : Char) : Bool :=
  c ∈ [' ', '\t', '\n', '\x0b', '\x0c', '\r',
       '\u0085', '\u00a0', '\u1680',
       '\u2000', '\u2001', '\u2002', '\u2003', '\u2004', '\u2005',
       '\u2006', '\u2007', '\u2008', '\u2009', '\u200a',
       '\u2028', '\u2029', '\u202f', '\u205f', '\u3000']

/-- `strings.TrimSpace`. -/
def trimSpace (s : Str) : Str :=
  ((s.dropWhile isSpaceGo).reverse.dropWhile isSpaceGo).reverse

/-- `strings.HasPrefix s pre`. -/
def startsWith : Str → Str → Bool
  | _, [] => true
  | [], _ :: _ => false
  | c :: s, d :: p => c == d && startsWith s p

/-- `strings.HasSuffix s suf`. -/
def endsWith (s suf : Str) : Bool :=
  startsWith s.reverse suf.reverse

/-- `strings.TrimSuffix s suf`: drops one copy of `suf` when present. -/
def trimTrailing (s suf : Str) : Str :=
  if endsWith s suf then s.take (s.length - suf.length) else s

/-- `strings.TrimPrefix s pre`: drops one copy of `pre` when present. -/
def trimLeading (s pre : Str) : Str :=
  if startsWith s pre then s.drop pre.length else s

/-- `strings.Contains s sub`. -/
def containsStr : Str → Str → Bool
  | s, sub =>
    if startsWith s sub then true
    else
      match s with
      | [] => false
      | _ :: rest => containsStr rest sub

/-- `strings.Index s sub`: position of the first occurrence (`none` for Go's `-1`). -/
def indexOfStr : Str → Str → Option Nat
  | s, sub =>
    if startsWith s sub then some 0
    else
      match s with
      | [] => none
      | _ :: rest => (indexOfStr rest sub).map (· + 1)

/-- First position of a character (`strings.IndexByte`). -/
def indexOfChar (s : Str) (c : Char) : Option Nat :=
  s.findIdx? (· == c)

/-- Last position of a character (`strings.LastIndexByte`). -/
def lastIndexChar : Str → Char → Option Nat
  | [], _ => none
  | x :: xs, c =>
    match lastIndexChar xs c with
    | some i => some (i + 1)
    | none => if x = c then some 0 else none

/-- `strings.Split s (single separator character)`. -/
def splitOnChar (c : Char) : Str → List Str
  | [] => [[]]
  | x :: xs =>
    if x == c then [] :: splitOnChar c xs
    else
      match splitOnChar c xs with
      | [] => [[x]]
      | h :: t => (x :: h) :: t

/-- `strings.Join parts (single separator character)`. -/
def intercalateChar (c : Char) : List Str → Str
  | [] => []
  | [p] => p
  | p :: rest => p ++ c :: intercalateChar c rest

/-- Accumulator form of `strings.Fields`. -/
def fieldsAux : Str → Str → List Str
  | [], acc => if acc.isEmpty then [] else [acc.reverse]
  | c :: s, acc =>
    if isSpaceGo c then
      if acc.isEmpty then fieldsAux s [] else acc.reverse :: fieldsAux s []
    else fieldsAux s (c :: acc)

/-- `strings.Fields`: whitespace-delimited fields, no empties. -/
def fieldsGo (s : Str) : List Str := fieldsAux s []

/-- ASCII lower-casing of one character (the portion of Go's Unicode case
tables that the inputs here exercise; other code points are fixed). -/
def lowerChar (c : Char) : Char :=
  if 'A' ≤ c ∧ c ≤ 'Z' then Char.ofNat (c.toNat + 32) else c

/-- `strings.ToLower`. -/
def toLowerGo (s : Str) : Str := s.map lowerChar

/-- `strings.EqualFold`: case-insensitive equality (simple case folding,
which agrees with lower-casing both sides on these inputs). -/
def equalFold (a b : Str) : Bool := toLowerGo a == toLowerGo b

/-! ### `net.ParseIP` and `IP.String`

`net.ParseIP` always yields a 16-byte address (IPv4 addresses are stored in
their IPv4-in-IPv6 form), so an IP is a list of 16 byte values and
`IP.Equal` on two parsed addresses is list equality.  The parser follows
`netip.ParseAddr` as used by `net.ParseIP` (which also rejects zones); hex
digits are accepted in either case, modelled by case-folding before the
IPv6 field parse. -/

/-- Lower-case hex digit (the IPv6 parser folds its input first). -/
def isHexLower (c : Char) : Bool :=
  c.isDigit || ('a' ≤ c ∧ 'f' ≥ c)

/-- Numeric value of a (lower-case) hex digit; 0 elsewhere. -/
def hexValD (c : Char) : Nat :=
  if c.isDigit then c.toNat - '0'.toNat
  else if 'a' ≤ c ∧ c ≤ 'f' then c.toNat - 'a'.toNat + 10
  else 0

/-- One dotted-quad field: 1–3 decimal digits, no leading zero, value ≤ 255. -/
def parseDecOctet (f : Str) : Option Nat :=
  if f.isEmpty then none
  else if !f.all Char.isDigit then none
  else if f.length > 1 ∧ f.head? = some '0' then none
  else
    let v := f.foldl (fun a c => 10 * a + (c.toNat - '0'.toNat)) 0
    if v ≤ 255 then some v else none

/-- A dotted quad `a.b.c.d`. -/
def parseV4Quad (s : Str) : Option (Nat × Nat × Nat × Nat) :=
  match splitOnChar '.' s with
  | [a, b, c, d] =>
    match parseDecOctet a, parseDecOctet b, parseDecOctet c, parseDecOctet d with
    | some x, some y, some z, some w => some (x, y, z, w)
    | _, _, _, _ => none
  | _ => none

/-- The 16-byte IPv4-in-IPv6 form of a dotted quad. -/
def v4Mapped (a b c d : Nat) : List Nat :=
  [0, 0, 0, 0, 0, 0, 0, 0, 0, 0, 255, 255, a, b, c, d]

/-- One 16-bit IPv6 field: non-empty lower-case hex, value < 2^16. -/
def parseHexGroup (f : Str) : Option Nat :=
  if f.isEmpty then none
  else if !f.all isHexLower then none
  else
    let v := f.foldl (fun a c => 16 * a + hexValD c) 0
    if v ≤ 65535 then some v else none

/-- Parse a run of IPv6 fields into 16-bit groups; only the final field may
be an embedded dotted quad (two groups), and only when `v4ok` is set. -/
def parseGroupSeq (v4ok : Bool) : List Str → Option (List Nat)
  | [] => some []
  | [f] =>
    if v4ok && f.contains '.' then
      (parseV4Quad f).map (fun (a, b, c, d) => [256 * a + b, 256 * c + d])
    else (parseHexGroup f).map ([·])
  | f :: g :: rest =>
    match parseHexGroup f, parseGroupSeq v4ok (g :: rest) with
    | some v, some vs => some (v :: vs)
    | _, _ => none

/-- 16-bit groups to bytes. -/
def groupsToBytes (gs : List Nat) : List Nat :=
  (gs.map (fun g => [g / 256, g % 256])).flatten

/-- Assembling an IPv6 address from the group sequences on the two sides of
a `::` gap: the gap stands for at least one zero group. -/
def v6Assemble (left right : List Str) : Option (List Nat) :=
  match parseGroupSeq false left, parseGroupSeq true right with
  | some gl, some gr =>
    if gl.length + gr.length ≤ 7 then
      some (groupsToBytes (gl ++ List.replicate (8 - (gl.length + gr.length)) 0 ++ gr))
    else none
  | _, _ => none

/-- IPv6 address body (input already case-folded): `::` compression is
recognised through the empty fields produced by splitting on `:`. -/
def parseV6 (s : Str) : Option (List Nat) :=
  if s.contains '%' then none
  else
    let fields := splitOnChar ':' s
    let pre := fields.takeWhile (fun f => !f.isEmpty)
    let assemble := v6Assemble
    match fields.drop pre.length with
    | [] =>
      -- no `::`; exactly eight groups required
      match parseGroupSeq true fields with
      | some gs => if gs.length = 8 then some (groupsToBytes gs) else none
      | none => none
    | [] :: rest2 =>
      if pre.isEmpty then
        -- the string starts with `:`: only a leading `::` is legal
        match rest2 with
        | [] => none
        | [] :: rest3 =>
          if rest3 = [[]] then assemble [] []
          else if !rest3.isEmpty && rest3.all (fun f => !f.isEmpty) then assemble [] rest3
          else none
        | _ => none
      else
        match rest2 with
        | [] => none
        | [[]] => assemble pre []
        | _ =>
          if rest2.all (fun f => !f.isEmpty) then assemble pre rest2 else none
    | _ :: _ => none

/-- `net.ParseIP`: dispatch on the first `.` or `:`, as Go does. -/
def parseIP (s : Str) : Option (List Nat) :=
  match s.find? (fun c => c == '.' || c == ':') with
  | some c =>
    if c = '.' then (parseV4Quad s).map (fun (a, b, c, d) => v4Mapped a b c d)
    else parseV6 (s.map lowerChar)
  | none => none

/-- Decimal digit character. -/
def decDigit (d : Nat) : Char := Char.ofNat ('0'.toNat + d)

/-- Lower-case hex digit character. -/
def hexDigit (d : Nat) : Char :=
  if d < 10 then decDigit d else Char.ofNat ('a'.toNat + d - 10)

/-- Minimal decimal representation of a byte value. -/
def decStr (n : Nat) : Str :=
  if n < 10 then [decDigit n]
  else if n < 100 then [decDigit (n / 10), decDigit (n % 10)]
  else [decDigit (n / 100), decDigit (n / 10 % 10), decDigit (n % 10)]

/-- Minimal lower-case hex representation of a 16-bit group. -/
def hexStr16 (n : Nat) : Str :=
  if n < 16 then [hexDigit n]
  else if n < 256 then [hexDigit (n / 16), hexDigit (n % 16)]
  else if n < 4096 then [hexDigit (n / 256), hexDigit (n / 16 % 16), hexDigit (n % 16)]
  else [hexDigit (n / 4096), hexDigit (n / 256 % 16), hexDigit (n / 16 % 16), hexDigit (n % 16)]

/-- Pair consecutive bytes into 16-bit groups. -/
def bytesToGroups : List Nat → List Nat
  | [] => []
  | [x] => [256 * x]
  | x :: y :: rest => (256 * x + y) :: bytesToGroups rest

/-- Length of the run of zeros starting at group index `i`. -/
def runLenFrom (gs : List Nat) (i : Nat) : Nat :=
  ((gs.drop i).takeWhile (· = 0)).length

/-- Start indices of maximal zero runs. -/
def zeroRunStarts (gs : List Nat) : List Nat :=
  (List.range gs.length).filter
    (fun i => gs.get? i = some 0 ∧ (i = 0 ∨ gs.get? (i - 1) ≠ some 0))

/-- One step of the scan for the best zero run: a strictly longer run
replaces the current best, so the leftmost of the longest runs wins. -/
def bestRunFold (gs : List Nat) (acc : Option (Nat × Nat)) (i : Nat) : Option (Nat × Nat) :=
  match acc with
  | none => some (i, runLenFrom gs i)
  | some (bi, bl) =>
    if runLenFrom gs i > bl then some (i, runLenFrom gs i) else some (bi, bl)

/-- `IP.String`'s choice of the `::` gap: the leftmost longest maximal run
of zero groups, used only when at least two groups long.  Returns group
index bounds `[i, j)`. -/
def bestRun (gs : List Nat) : Option (Nat × Nat) :=
  match (zeroRunStarts gs).foldl (bestRunFold gs) none with
  | some (i, l) => if l ≥ 2 then some (i, i + l) else none
  | none => none

/-- Is this 16-byte address an IPv4-in-IPv6 address (`IP.To4` non-nil)? -/
def isV4InV6 (b : List Nat) : Bool :=
  b.take 12 == [0, 0, 0, 0, 0, 0, 0, 0, 0, 0, 255, 255]

/-- `IP.String` on a 16-byte address: dotted quad for IPv4-in-IPv6,
otherwise canonical compressed lower-case IPv6. -/
def ipString (b : List Nat) : Str :=
  if isV4InV6 b then
    intercalateChar '.' ((b.drop 12).map decStr)
  else
    let gs := bytesToGroups b
    match bestRun gs with
    | none => intercalateChar ':' (gs.map hexStr16)
    | some (i, j) =>
      intercalateChar ':' ((gs.take i).map hexStr16) ++
        ':' :: ':' :: intercalateChar ':' ((gs.drop j).map hexStr16)

/-! ### `net.SplitHostPort` -/

/-- `net.SplitHostPort`: split at the last `:`; a bracketed host must wrap
exactly the part before that colon; an unbracketed host may not contain a
further `:`, and stray brackets are rejected.  `none` models the error
return. -/
def splitHostPort (hp : Str) : Option (Str × Str) :=
  match lastIndexChar hp ':' with
  | none => none
  | some i =>
    if startsWith hp (str "[") then
      match indexOfChar hp ']' with
      | none => none
      | some endIdx =>
        if endIdx + 1 = hp.length then none
        else if endIdx + 1 = i then
          if (hp.drop 1).contains '[' then none
          else if (hp.drop (endIdx + 1)).contains ']' then none
          else some ((hp.drop 1).take (endIdx - 1), hp.drop (i + 1))
        else none
    else
      if (hp.take i).contains ':' then none
      else if hp.contains '[' then none
      else if hp.contains ']' then none
      else some (hp.take i, hp.drop (i + 1))

/-! ### `golang.org/x/net/idna.ToASCII`

The repository calls the package-level `idna.ToASCII`, which uses the
`Punycode` profile: no validation, no length checks; each label that is
already ASCII is left unchanged and each non-ASCII label is replaced by its
`xn--`-prefixed Punycode encoding (RFC 3492 parameters).  The encoder's
loops are fuelled; the fuel is ample for every input a theorem touches, and
no claim exercises a non-ASCII label. -/

def punyBase : Nat := 36
def punyTMin : Nat := 1
def punyTMax : Nat := 26
def punySkew : Nat := 38
def punyDamp : Nat := 700
def punyInitialBias : Nat := 72
def punyInitialN : Nat := 128

/-- RFC 3492 digit: 0–25 ↦ a–z, 26–35 ↦ 0–9. -/
def punyDigit (d : Nat) : Char :=
  if d < 26 then Char.ofNat ('a'.toNat + d) else Char.ofNat ('0'.toNat + d - 26)

/-- RFC 3492 bias adaptation. -/
def punyAdapt (delta numpoints : Nat) (firsttime : Bool) : Nat :=
  let delta := if firsttime then delta / punyDamp else delta / 2
  let delta := delta + delta / numpoints
  let rec go : Nat → Nat → Nat → Nat
    | 0, _, k => k
    | fuel + 1, d, k =>
      if d > ((punyBase - punyTMin) * punyTMax) / 2 then
        go fuel (d / (punyBase - punyTMin)) (k + punyBase)
      else k + (punyBase - punyTMin + 1) * d / (d + punySkew)
  go (delta + 1) delta 0

/-- Emit the variable-length integer for `q` at bias `bias`. -/
def punyEncodeInt (fuel q bias k : Nat) : Str :=
  match fuel with
  | 0 => []
  | fuel + 1 =>
    let t := if k ≤ bias + punyTMin then punyTMin
             else if k ≥ bias + punyTMax then punyTMax else k - bias
    if q < t then [punyDigit q]
    else punyDigit (t + (q - t) % (punyBase - t)) ::
         punyEncodeInt fuel ((q - t) / (punyBase - t)) bias (k + punyBase)

/-- One pass of the Punycode outer loop, handling code point `n`. -/
def punyOuter (input : List Nat) (fuel n delta bias h : Nat) (acc : Str) : Str :=
  match fuel with
  | 0 => acc
  | fuel + 1 =>
    if h ≥ input.length then acc
    else
      let m := (input.filter (· ≥ n)).foldl min 1114112
      let delta := delta + (m - n) * (h + 1)
      let inner := input.foldl
        (fun (st : Nat × Nat × Nat × Str) c =>
          let (delta, bias, h, acc) := st
          if c < m then (delta + 1, bias, h, acc)
          else if c = m then
            (0, punyAdapt delta (h + 1) (h = (input.filter (· < punyInitialN)).length),
             h + 1, acc ++ punyEncodeInt (delta + punyBase) delta bias punyBase)
          else (delta, bias, h, acc))
        (delta, bias, h, acc)
      let (delta, bias, h, acc) := inner
      punyOuter input fuel (m + 1) (delta + 1) bias h acc

/-- Punycode encoding of one label. -/
def punyEncodeLabel (label : Str) : Str :=
  let cps := label.map Char.toNat
  let basic := label.filter (fun c => c.toNat < punyInitialN)
  let head := if basic.isEmpty then basic else basic ++ ['-']
  head ++ punyOuter cps (cps.length + 1) punyInitialN 0 punyInitialBias basic.length []

/-- `idna.ToASCII` (Punycode profile): per-label ACE conversion; ASCII
labels pass through; the error return is always nil here, as it is for
every input the repository can feed it. -/
def idnaToASCII (s : Str) : Option Str :=
  some (intercalateChar '.'
    ((splitOnChar '.' s).map
      (fun label =>
        if label.all (fun c => c.toNat < 128) then label
        else str "xn--" ++ punyEncodeLabel label)))

/-! ### `net/url.Parse`, restricted to the host component

The repository only inspects `err` and `u.Host`, so the URL parser is
modelled as a partial map from the raw URL to its `Host` field (`none` is a
parse error).  It follows `url.Parse`/`parse`/`parseAuthority`/`parseHost`:
control bytes are rejected, the fragment is cut at the first `#` and its
escapes checked, the scheme is recognised and removed, the query is cut at
the first `?`, an authority is parsed only after `//`, userinfo is split at
the last `@` and validated, a bracketed host needs a matching `]`, a port
after the host must be decimal, and host bytes are validated and
percent-unescaped. -/

/-- `stringContainsCTLByte`. -/
def isCTL (c : Char) : Bool := c.toNat < 32 || c.toNat = 127

/-- Split at the first occurrence of `c`, dropping the separator:
`(before, after?)` with `after? = none` when `c` is absent
(`strings.Cut`). -/
def cutAtFirst (c : Char) : Str → Str × Option Str
  | [] => ([], none)
  | x :: xs =>
    if x == c then ([], some xs)
    else
      let (b, a) := cutAtFirst c xs
      (x :: b, a)

/-- A hex digit in either case. -/
def isHexAny (c : Char) : Bool :=
  c.isDigit || ('a' ≤ c ∧ c ≤ 'f') || ('A' ≤ c ∧ c ≤ 'F')

/-- Every `%` is followed by two hex digits (either case); the only way
`unescape` fails in the fragment, path and userinfo modes. -/
def validEscapes : Str → Bool
  | [] => true
  | '%' :: c1 :: c2 :: rest => isHexAny c1 && isHexAny c2 && validEscapes rest
  | '%' :: _ => false
  | _ :: rest => validEscapes rest

/-- Bytes `shouldEscape` accepts verbatim inside a host component. -/
def hostAllowedChar (c : Char) : Bool :=
  c.isAlphanum ||
    c ∈ ['-', '.', '_', '~', '!', '$', '&', '\'', '(', ')', '*', '+', ',',
         ';', '=', ':', '[', ']', '<', '>', '"']

/-- Numeric value of a hex digit in either case. -/
def hexValAny (c : Char) : Nat :=
  if c.isDigit then c.toNat - '0'.toNat
  else if 'a' ≤ c ∧ c ≤ 'f' then c.toNat - 'a'.toNat + 10
  else if 'A' ≤ c ∧ c ≤ 'F' then c.toNat - 'A'.toNat + 10
  else 0

/-- `unescape(host, encodeHost)`: reject bad escapes, reject `%`-escapes of
ASCII bytes other than `%25`, reject verbatim ASCII bytes outside the host
set, and decode the remaining escapes. -/
def unescapeHost : Str → Option Str
  | [] => some []
  | '%' :: c1 :: c2 :: rest =>
    if isHexAny c1 && isHexAny c2 then
      let v := 16 * hexValAny c1 + hexValAny c2
      if v ≥ 128 || v = 37 then (unescapeHost rest).map (Char.ofNat v :: ·)
      else none
    else none
  | '%' :: _ => none
  | c :: rest =>
    if c.toNat < 128 && !hostAllowedChar c then none
    else (unescapeHost rest).map (c :: ·)

/-- `validOptionalPort`: empty, or `:` followed by decimal digits. -/
def validOptionalPort : Str → Bool
  | [] => true
  | ':' :: rest => rest.all Char.isDigit
  | _ => false

/-- `validUserinfo`. -/
def validUserinfo (s : Str) : Bool :=
  s.all (fun c =>
    c.isAlphanum ||
      c ∈ ['-', '.', '_', ':', '~', '!', '$', '&', '\'', '(', ')', '*', '+',
           ',', ';', '=', '%', '@'])

/-- `getScheme`: `some (scheme, rest)`; a `:` in position 0 is the
"missing protocol scheme" error (`none`); any other non-scheme byte means
no scheme at all. -/
def getSchemeAux : Str → Str → Bool → Str → Option (Str × Str)
  | orig, acc, first, s =>
    match s with
    | [] => some ([], orig)
    | c :: rest =>
      if c.isAlpha then getSchemeAux orig (c :: acc) false rest
      else if c.isDigit || c ∈ ['+', '-', '.'] then
        if first then some ([], orig) else getSchemeAux orig (c :: acc) false rest
      else if c = ':' then
        if first then none else some (acc.reverse, rest)
      else some ([], orig)

def getScheme (s : Str) : Option (Str × Str) :=
  getSchemeAux s [] true s

/-- `parseHost`: bracket balance, optional decimal port, byte validation
and unescaping.  (The `%25` zone subtleties inside brackets reduce to the
same escape rules here.) -/
def parseHostURL (hp : Str) : Option Str :=
  match hp with
  | '[' :: _ =>
    match lastIndexChar hp ']' with
    | none => none
    | some i =>
      if validOptionalPort (hp.drop (i + 1)) then unescapeHost hp else none
  | _ =>
    match lastIndexChar hp ':' with
    | none => unescapeHost hp
    | some i =>
      if validOptionalPort (hp.drop i) then unescapeHost hp else none

/-- `parseAuthority`: userinfo (before the last `@`) is validated, the rest
is the host. -/
def parseAuthority (authority : Str) : Option Str :=
  match lastIndexChar authority '@' with
  | none => parseHostURL authority
  | some i =>
    match parseHostURL (authority.drop (i + 1)) with
    | none => none
    | some host =>
      let userinfo := authority.take i
      if validUserinfo userinfo && validEscapes userinfo then some host
      else none

/-- `url.Parse` projected to `(err?, u.Host)`. -/
def urlParseHost (s : Str) : Option Str :=
  if s.any isCTL then none
  else
    let (p, frag) := cutAtFirst '#' s
    if !(match frag with | none => true | some f => validEscapes f) then none
    else
      match getScheme p with
      | none => none
      | some (scheme, rest) =>
        let (rest, _) := cutAtFirst '?' rest
        if !startsWith rest ['/'] && !scheme.isEmpty then
          some []   -- opaque URL: no host
        else if !startsWith rest ['/'] && scheme.isEmpty &&
            ((cutAtFirst '/' rest).1.contains ':') then
          none      -- "first path segment in URL cannot contain colon"
        else if (!scheme.isEmpty || !startsWith rest (str "///")) &&
            startsWith rest (str "//") then
          let (authority, pathrest) := cutAtFirst '/' (rest.drop 2)
          match parseAuthority authority with
          | none => none
          | some host =>
            if validEscapes (match pathrest with | none => [] | some t => t) then
              some host
            else none
        else
          if validEscapes rest then some [] else none

/-! ### The repository core (src/main.go) -/

/-- `scopeKind` (src/main.go:16). -/
inductive scopeKind where
  | scopeExact
  | scopeLeadingWildcard
  | scopePatternWildcard
deriving DecidableEq, Repr

export scopeKind (scopeExact scopeLeadingWildcard scopePatternWildcard)

/-- `scopeEntry` (src/main.go:24); absent fields default to Go zero
values. -/
structure scopeEntry where
  raw : Str := []
  kind : scopeKind
  base : Str := []
  port : Str := []
  patternLabels : List Str := []
deriving DecidableEq, Repr

/-- `stripBrackets` (src/main.go:294). -/
def stripBrackets (s : Str) : Str :=
  trimTrailing (trimLeading s (str "[")) (str "]")

/-- The unbracketed tail of `stripPort`: `net.SplitHostPort`, with a
last-colon fallback guarded by the segment after the colon not being an IP
(src/main.go:282–291). -/
def stripPortFallback (h : Str) : Str × Str :=
  match splitHostPort h with
  | some (host, port) => (host, port)
  | none =>
    let parts := splitOnChar ':' h
    if parts.length > 1 ∧ parseIP (parts.getLastD []) = none then
      (intercalateChar ':' parts.dropLast, parts.getLastD [])
    else (h, [])

/-- `stripPort` (src/main.go:267). -/
def stripPort (s : Str) : Str × Str :=
  let h := trimSpace s
  if h.isEmpty then ([], [])
  else if startsWith h (str "[") then
    match lastIndexChar h ']' with
    | some idx =>
      let host := h.take (idx + 1)
      let rest := h.drop (idx + 1)
      if startsWith rest (str ":") then (host, rest.drop 1) else (host, [])
    | none => stripPortFallback h
  else stripPortFallback h

/-- Process one label of a pattern scope line (src/main.go:123–150):
returns the rewritten label and the port marker payload, if any. -/
def patternLabelStep (lbl0 : Str) : Str × Option Str :=
  let lbl := trimSpace lbl0
  if lbl.isEmpty then (lbl, none)
  else if lbl.contains ':' then
    let (h, p) := stripPort lbl
    let h := trimTrailing h (str ".")
    let h := if startsWith h (str "[") && endsWith h (str "]") then stripBrackets h else h
    let h := match idnaToASCII h with | some a => a | none => h
    (h, if p.isEmpty then none else some p)
  else
    let lbl := if lbl = str "*" then lbl
               else match idnaToASCII lbl with | some a => a | none => lbl
    (toLowerGo lbl, none)

/-- Pop a trailing `__PORT__:` marker off the pattern labels
(src/main.go:151–158): `(remaining labels, port)`. -/
def popPortMarker (labels : List Str) : List Str × Str :=
  match labels.getLast? with
  | some last =>
    if startsWith last (str "__PORT__:") then
      (labels.dropLast, trimLeading last (str "__PORT__:"))
    else (labels, [])
  | none => (labels, [])

/-- `parseScopeLine` (src/main.go:104).  In the pattern branch Go appends
`__PORT__:`-markers while iterating over the original label count, so the
markers end up after the rewritten labels, and only the final marker is
popped into the entry's port. -/
def parseScopeLine (line0 : Str) : scopeEntry :=
  let orig := line0
  let line := trimTrailing (trimSpace line0) (str ".")
  if startsWith line (str "*.") then
    let without := trimLeading line (str "*.")
    let hp := stripPort without
    let port := hp.2
    let host := trimTrailing hp.1 (str ".")
    let host := if startsWith host (str "[") && endsWith host (str "]") then
                  stripBrackets host else host
    let host := match idnaToASCII host with | some a => a | none => host
    { raw := orig, kind := scopeLeadingWildcard, base := toLowerGo host, port := port }
  else if line.contains '*' then
    let step := (splitOnChar '.' line).map patternLabelStep
    let labels := step.map Prod.fst ++
      (step.filterMap Prod.snd).map (fun p => str "__PORT__:" ++ p)
    let lp := popPortMarker labels
    { raw := orig, kind := scopePatternWildcard, patternLabels := lp.1, port := lp.2 }
  else
    let hp := stripPort line
    let port := hp.2
    let host := trimTrailing hp.1 (str ".")
    let host := if startsWith host (str "[") && endsWith host (str "]") then
                  stripBrackets host else host
    { raw := orig, kind := scopeExact, port := port,
      base :=
        match parseIP host with
        | some ip => ipString ip
        | none => toLowerGo (match idnaToASCII host with | some a => a | none => host) }

/-- `loadScope` (src/main.go:71) on an already-read list of lines: skip
blanks and `#`-led lines, truncate at an inline `#`, parse the rest. -/
def loadScopeLines (lines : List Str) : List scopeEntry :=
  lines.filterMap (fun raw =>
    let trimmed := trimSpace raw
    if trimmed.isEmpty then none
    else if startsWith trimmed (str "#") then none
    else
      let trimmed := match indexOfStr trimmed (str "#") with
                     | some idx => trimSpace (trimmed.take idx)
                     | none => trimmed
      if trimmed.isEmpty then none
      else some (parseScopeLine trimmed))

/-- The final bracket strip every branch of `extractHostFromLine` applies
to the host half of a split result (src/main.go:222, 229, 238, 245). -/
def postBracket (hp : Str × Str) : Str × Str :=
  (if startsWith hp.1 (str "[") && endsWith hp.1 (str "]") then stripBrackets hp.1
   else hp.1, hp.2)

/-- `extractHostFromLine` (src/main.go:203): `none` is `ok=false`. -/
def extractHostFromLine (line0 : Str) : Option (Str × Str) :=
  let line := trimSpace line0
  if line.isEmpty || startsWith line (str "#") then none
  else
    match fieldsGo line with
    | [] => none
    | first :: _ =>
      if containsStr first (str "://") then
        match urlParseHost first with
        | none => none
        | some host => if host.isEmpty then none else some (postBracket (stripPort host))
      else if startsWith first (str "[") && containsStr first (str "]") then
        some (postBracket (stripPort first))
      else if containsStr first (str "/") then
        match urlParseHost (str "http://" ++ first) with
        | some host =>
          if host.isEmpty then some (postBracket (stripPort first))
          else some (postBracket (stripPort host))
        | none => some (postBracket (stripPort first))
      else some (postBracket (stripPort first))

/-- `normalizeHost` (src/main.go:251); the Go error return is always nil,
so the result is just the normalized string. -/
def normalizeHost (h0 : Str) : Str :=
  let h := trimSpace h0
  if h.isEmpty then []
  else
    let h := trimTrailing h (str ".")
    match parseIP h with
    | some ip => ipString ip
    | none =>
      let h := match idnaToASCII h with | some a => a | none => h
      toLowerGo h

/-- `equalHost` (src/main.go:367). -/
def equalHost (a b : Str) : Bool :=
  equalFold (trimTrailing a (str ".")) (trimTrailing b (str "."))

/-- `matchLeadingWildcard` (src/main.go:373). -/
def matchLeadingWildcard (host base : Str) : Bool :=
  if equalHost host base then true
  else if endsWith host ('.' :: base) then true
  else false

/-- The indexed label loop of `matchPatternWildcard`, as pairwise
recursion over equal-length lists. -/
def patternLabelsMatch : List Str → List Str → Bool
  | [], [] => true
  | [], _ :: _ => false
  | _ :: _, [] => false
  | h :: hs, p0 :: ps =>
    let p := toLowerGo (trimSpace p0)
    (if p = str "*" then !h.isEmpty else equalFold h p) && patternLabelsMatch hs ps

/-- `matchPatternWildcard` (src/main.go:383). -/
def matchPatternWildcard (host : Str) (pattern : List Str) : Bool :=
  let hl := splitOnChar '.' (trimTrailing host (str "."))
  if hl.length ≠ pattern.length then false
  else patternLabelsMatch hl pattern

/-- The IP-literal loop of `matchHost` (src/main.go:305–327): only `Exact`
entries are consulted; an entry hits on parsed-IP equality or on
case-insensitive string equality, subject to its port constraint; a port
mismatch moves on to the next entry. -/
def matchIPLoop (ip : List Nat) (host port : Str) : List scopeEntry → Bool
  | [] => false
  | e :: rest =>
    if e.kind ≠ scopeExact then matchIPLoop ip host port rest
    else
      let portGate := fun (cont : Bool) =>
        if !e.port.isEmpty then
          if e.port = port then true else cont
        else true
      let foldCheck :=
        if equalFold e.base host then portGate (matchIPLoop ip host port rest)
        else matchIPLoop ip host port rest
      match parseIP e.base with
      | some otherIP =>
        if otherIP = ip then portGate (matchIPLoop ip host port rest) else foldCheck
      | none => foldCheck

/-- The per-kind test an entry applies to a domain-name host
(src/main.go:332–353). -/
def entryHit (host : Str) (e : scopeEntry) : Bool :=
  match e.kind with
  | scopeExact => equalHost host e.base
  | scopeLeadingWildcard => matchLeadingWildcard host e.base
  | scopePatternWildcard => matchPatternWildcard host e.patternLabels

/-- The domain-name loop of `matchHost` (src/main.go:330–364). -/
def matchDomainLoop (host port : Str) : List scopeEntry → Bool
  | [] => false
  | e :: rest =>
    if entryHit host e then
      if !e.port.isEmpty then
        if e.port = port then true else matchDomainLoop host port rest
      else true
    else matchDomainLoop host port rest

/-- `matchHost` (src/main.go:300). -/
def matchHost (host port : Str) (scope : List scopeEntry) : Bool :=
  if host.isEmpty then false
  else
    match parseIP host with
    | some ip => matchIPLoop ip host port scope
    | none => matchDomainLoop host port scope

/-- `processLines` (src/main.go:177) on an already-read list of lines:
returns the emitted lines in order. -/
def processLines (lines : List Str) (scope : List scopeEntry) (reverse : Bool) : List Str :=
  match lines with
  | [] => []
  | line :: rest =>
    match extractHostFromLine line with
    | none => processLines rest scope reverse
    | some (host, port) =>
      let normHost := normalizeHost host
      if normHost.isEmpty then processLines rest scope reverse
      else
        let matched := matchHost normHost port scope
        if matched && !reverse then line :: processLines rest scope reverse
        else if !matched && reverse then line :: processLines rest scope reverse
        else processLines rest scope reverse

/-- The per-entry verdict of the domain-name loop: the kind's test plus the
port constraint. -/
def entrySat (host port : Str) (e : scopeEntry) : Bool :=
  entryHit host e && (e.port.isEmpty || e.port == port)

/-- The per-entry verdict of the IP loop: `Exact` kind, parsed-IP or
case-folded string equality, and the port constraint. -/
def entrySatIP (ip : List Nat) (host port : Str) (e : scopeEntry) : Bool :=
  (e.kind == scopeExact) &&
    ((parseIP e.base == some ip) || equalFold e.base host) &&
    (e.port.isEmpty || e.port == port)

/-- The condition one pattern label imposes on the corresponding host
label. -/
def patternLabelOK (h p0 : Str) : Prop :=
  if toLowerGo (trimSpace p0) = str "*" then h ≠ []
  else equalFold h (toLowerGo (trimSpace p0)) = true

/-- A well-formed 16-byte address. -/
def ipWF (b : List Nat) : Prop := b.length = 16 ∧ ∀ x ∈ b, x < 256

/-! ### Basic lemmas -/

theorem startsWith_iff (s p : Str) : startsWith s p = true ↔ p <+: s := by
  induction p generalizing s with
  | nil => simp [startsWith, List.nil_prefix]
  | cons d p ih =>
    cases s with
    | nil => simp [startsWith]
    | cons c s =>
      simp only [startsWith, Bool.and_eq_true, beq_iff_eq, ih, List.cons_prefix_cons]
      tauto

theorem endsWith_iff (s t : Str) : endsWith s t = true ↔ t <:+ s := by
  rw [endsWith, startsWith_iff, List.reverse_prefix]

theorem trimTrailing_of_not_endsWith {s suf : Str} (h : endsWith s suf = false) :
    trimTrailing s suf = s := by
  simp [trimTrailing, h]

theorem matchDomainLoop_cons (host port : Str) (e : scopeEntry) (rest : List scopeEntry) :
    matchDomainLoop host port (e :: rest) =
      (entrySat host port e || matchDomainLoop host port rest) := by
  rw [matchDomainLoop, entrySat]
  cases hhit : entryHit host e
  · simp
  · cases hp : e.port with
    | nil => simp [List.isEmpty]
    | cons c t =>
      by_cases hpe : e.port = port
      · rw [hp] at hpe
        simp [List.isEmpty, hpe]
      · rw [hp] at hpe
        have hbe : ((c :: t : Str) == port) = false := by simpa using hpe
        simp [List.isEmpty, hpe, hbe]

theorem matchDomainLoop_eq_any (host port : Str) (l : List scopeEntry) :
    matchDomainLoop host port l = l.any (entrySat host port) := by
  induction l with
  | nil => rfl
  | cons e rest ih => rw [matchDomainLoop_cons, List.any_cons, ih]

theorem matchIPLoop_cons (ip : List Nat) (host port : Str) (e : scopeEntry)
    (rest : List scopeEntry) :
    matchIPLoop ip host port (e :: rest) =
      (entrySatIP ip host port e || matchIPLoop ip host port rest) := by
  by_cases hk : e.kind = scopeExact
  · have hk2 : (e.kind == scopeExact) = true := by simp [hk]
    cases hip : parseIP e.base with
    | none =>
      cases hf : equalFold e.base host with
      | false => simp [matchIPLoop, entrySatIP, hk, hk2, hip, hf]
      | true =>
        cases hp : e.port with
        | nil => simp [matchIPLoop, entrySatIP, hk, hk2, hip, hf, hp, List.isEmpty]
        | cons c t =>
          by_cases hpe : (c :: t : Str) = port
          · simp [matchIPLoop, entrySatIP, hk, hk2, hip, hf, hp, hpe, List.isEmpty]
          · have hbe : ((c :: t : Str) == port) = false := by simpa using hpe
            simp [matchIPLoop, entrySatIP, hk, hk2, hip, hf, hp, hpe, hbe, List.isEmpty]
    | some otherIP =>
      by_cases heq : otherIP = ip
      · subst heq
        cases hp : e.port with
        | nil => simp [matchIPLoop, entrySatIP, hk, hk2, hip, hp, List.isEmpty]
        | cons c t =>
          by_cases hpe : (c :: t : Str) = port
          · simp [matchIPLoop, entrySatIP, hk, hk2, hip, hp, hpe, List.isEmpty]
          · have hbe : ((c :: t : Str) == port) = false := by simpa using hpe
            simp [matchIPLoop, entrySatIP, hk, hk2, hip, hp, hpe, hbe, List.isEmpty]
      · have hno : (some otherIP == some ip) = false := by simpa using heq
        cases hf : equalFold e.base host with
        | false => simp [matchIPLoop, entrySatIP, hk, hk2, hip, heq, hno, hf]
        | true =>
          cases hp : e.port with
          | nil => simp [matchIPLoop, entrySatIP, hk, hk2, hip, heq, hno, hf, hp, List.isEmpty]
          | cons c t =>
            by_cases hpe : (c :: t : Str) = port
            · simp [matchIPLoop, entrySatIP, hk, hk2, hip, heq, hno, hf, hp, hpe, List.isEmpty]
            · have hbe : ((c :: t : Str) == port) = false := by simpa using hpe
              simp [matchIPLoop, entrySatIP, hk, hk2, hip, heq, hno, hf, hp, hpe, hbe,
                List.isEmpty]
  · have hk2 : (e.kind == scopeExact) = false := by simpa using hk
    simp [matchIPLoop, entrySatIP, hk, hk2]

theorem matchIPLoop_eq_any (ip : List Nat) (host port : Str) (l : List scopeEntry) :
    matchIPLoop ip host port l = l.any (entrySatIP ip host port) := by
  induction l with
  | nil => rfl
  | cons e rest ih => rw [matchIPLoop_cons, List.any_cons, ih]

theorem parseIP_nil : parseIP [] = none := rfl

theorem matchHost_domain {host : Str} (port : Str) (scope : List scopeEntry)
    (hip : parseIP host = none) :
    matchHost host port scope = (!host.isEmpty && scope.any (entrySat host port)) := by
  cases host with
  | nil => simp [matchHost, List.isEmpty]
  | cons c t =>
    rw [matchHost]
    simp only [List.isEmpty, Bool.not_false, Bool.true_and, if_neg (by simp : ¬(false = true))]
    rw [hip]
    exact matchDomainLoop_eq_any (c :: t) port scope

theorem matchHost_ip {host : Str} (port : Str) (scope : List scopeEntry) {ip : List Nat}
    (hip : parseIP host = some ip) :
    matchHost host port scope = scope.any (entrySatIP ip host port) := by
  cases host with
  | nil => rw [parseIP_nil] at hip; exact absurd hip (by simp)
  | cons c t =>
    rw [matchHost]
    simp only [List.isEmpty, if_neg (by simp : ¬(false = true))]
    rw [hip]
    exact matchIPLoop_eq_any ip (c :: t) port scope

theorem patternLabelsMatch_iff (hs ps : List Str) :
    patternLabelsMatch hs ps = true ↔ List.Forall₂ patternLabelOK hs ps := by
  induction hs generalizing ps with
  | nil =>
    cases ps with
    | nil => simp [patternLabelsMatch]
    | cons p ps => simp [patternLabelsMatch]
  | cons h hs ih =>
    cases ps with
    | nil => simp [patternLabelsMatch]
    | cons p ps =>
      rw [patternLabelsMatch]
      simp only [Bool.and_eq_true, List.forall₂_cons, ih, patternLabelOK]
      by_cases hstar : toLowerGo (trimSpace p) = str "*"
      · simp [hstar, List.isEmpty_iff]
      · simp [hstar]

/-! ### Splitting and joining lemmas -/

theorem splitOnChar_ne_nil (c : Char) (s : Str) : splitOnChar c s ≠ [] := by
  induction s with
  | nil => simp [splitOnChar]
  | cons x xs ih =>
    rw [splitOnChar]
    by_cases hx : x == c
    · simp [hx]
    · simp only [hx, Bool.false_eq_true, if_false]
      cases hsp : splitOnChar c xs <;> simp

theorem intercalateChar_cons_cons (c x : Char) (h : Str) (t : List Str) :
    intercalateChar c ((x :: h) :: t) = x :: intercalateChar c (h :: t) := by
  cases t <;> simp [intercalateChar]

theorem intercalateChar_splitOnChar (c : Char) (s : Str) :
    intercalateChar c (splitOnChar c s) = s := by
  induction s with
  | nil => rfl
  | cons x xs ih =>
    rw [splitOnChar]
    by_cases hx : x == c
    · have hxc : x = c := by simpa using hx
      cases hsp : splitOnChar c xs with
      | nil => exact absurd hsp (splitOnChar_ne_nil c xs)
      | cons h t =>
        simp only [hx, if_true, intercalateChar]
        rw [← hsp, ih, hxc]
        simp
    · simp only [hx, Bool.false_eq_true, if_false]
      cases hsp : splitOnChar c xs with
      | nil => exact absurd hsp (splitOnChar_ne_nil c xs)
      | cons h t =>
        rw [intercalateChar_cons_cons, ← hsp, ih]

theorem splitOnChar_append_cons (c : Char) (x y : Str) :
    splitOnChar c (x ++ c :: y) = splitOnChar c x ++ splitOnChar c y := by
  induction x with
  | nil => simp [splitOnChar]
  | cons a x ih =>
    rw [List.cons_append, splitOnChar, splitOnChar]
    by_cases ha : a == c
    · simp [ha, ih]
    · simp only [ha, Bool.false_eq_true, if_false]
      rw [ih]
      cases hsp : splitOnChar c x with
      | nil => exact absurd hsp (splitOnChar_ne_nil c x)
      | cons h t => simp

theorem splitOnChar_of_not_mem {c : Char} {s : Str} (h : c ∉ s) : splitOnChar c s = [s] := by
  induction s with
  | nil => rfl
  | cons x xs ih =>
    have hx : ¬(x == c) = true := by
      simp only [beq_iff_eq]
      rintro rfl
      exact h (List.mem_cons_self _ _)
    rw [splitOnChar, if_neg hx, ih (fun hm => h (List.mem_cons_of_mem _ hm))]

theorem not_mem_of_mem_splitOnChar {c : Char} {s p : Str}
    (hp : p ∈ splitOnChar c s) : c ∉ p := by
  induction s generalizing p with
  | nil =>
    simp only [splitOnChar, List.mem_singleton] at hp
    subst hp; simp
  | cons x xs ih =>
    rw [splitOnChar] at hp
    by_cases hx : x == c
    · rw [if_pos hx, List.mem_cons] at hp
      rcases hp with rfl | hp
      · simp
      · exact ih hp
    · rw [if_neg (by simpa using hx)] at hp
      cases hsp : splitOnChar c xs with
      | nil => exact absurd hsp (splitOnChar_ne_nil c xs)
      | cons h t =>
        rw [hsp, List.mem_cons] at hp
        rcases hp with rfl | hp
        · intro hmem
          rcases List.mem_cons.mp hmem with heq | hmem
          · exact absurd (by simp [heq] : (x == c) = true) hx
          · exact ih (show h ∈ splitOnChar c xs by rw [hsp]; exact List.mem_cons_self _ _) hmem
        · exact ih (show p ∈ splitOnChar c xs by
            rw [hsp]; exact List.mem_cons_of_mem _ hp)

theorem mem_intercalateChar {c : Char} {x : Char} {p : Str} {parts : List Str}
    (hx : x ∈ p) (hp : p ∈ parts) : x ∈ intercalateChar c parts := by
  induction parts with
  | nil => simp at hp
  | cons q rest ih =>
    cases rest with
    | nil =>
      simp only [List.mem_singleton] at hp
      subst hp
      simpa [intercalateChar] using hx
    | cons r rest2 =>
      have hrw : intercalateChar c (q :: r :: rest2) =
          q ++ c :: intercalateChar c (r :: rest2) := rfl
      rw [hrw]
      rcases List.mem_cons.mp hp with rfl | hp
      · exact List.mem_append_left _ hx
      · exact List.mem_append_right _ (List.mem_cons_of_mem _ (ih hp))

theorem mem_of_mem_splitOnChar {c x : Char} {s p : Str}
    (hp : p ∈ splitOnChar c s) (hx : x ∈ p) : x ∈ s := by
  have := mem_intercalateChar (c := c) hx hp
  rwa [intercalateChar_splitOnChar] at this

theorem splitOnChar_intercalateChar {c : Char} {parts : List Str}
    (h : ∀ p ∈ parts, c ∉ p) (hne : parts ≠ []) :
    splitOnChar c (intercalateChar c parts) = parts := by
  induction parts with
  | nil => exact absurd rfl hne
  | cons p rest ih =>
    cases rest with
    | nil => exact splitOnChar_of_not_mem (h p (List.mem_cons_self _ _))
    | cons q rest2 =>
      have hrw : intercalateChar c (p :: q :: rest2) =
          p ++ c :: intercalateChar c (q :: rest2) := rfl
      rw [hrw, splitOnChar_append_cons,
        splitOnChar_of_not_mem (h p (List.mem_cons_self _ _)),
        ih (fun r hr => h r (List.mem_cons_of_mem _ hr)) (by simp)]
      rfl

theorem lastIndexChar_get {s : Str} {c : Char} {i : Nat}
    (h : lastIndexChar s c = some i) : i < s.length ∧ s.get? i = some c := by
  induction s generalizing i with
  | nil => simp [lastIndexChar] at h
  | cons x xs ih =>
    rw [lastIndexChar] at h
    cases hrec : lastIndexChar xs c with
    | some j =>
      rw [hrec] at h
      obtain rfl : j + 1 = i := by simpa using h
      obtain ⟨hlt, hget⟩ := ih hrec
      exact ⟨by simpa using hlt, by simpa using hget⟩
    | none =>
      rw [hrec] at h
      by_cases hx : x = c
      · rw [if_pos hx] at h
        obtain rfl : 0 = i := by simpa using h
        exact ⟨by simp, by simp [hx]⟩
      · rw [if_neg hx] at h
        simp at h

theorem lastIndexChar_eq_none_iff {s : Str} {c : Char} :
    lastIndexChar s c = none ↔ c ∉ s := by
  induction s with
  | nil => simp [lastIndexChar]
  | cons x xs ih =>
    rw [lastIndexChar]
    cases hrec : lastIndexChar xs c with
    | some j =>
      have hmem : c ∈ xs := by
        by_contra hc
        rw [ih.mpr hc] at hrec
        exact absurd hrec (by simp)
      simp [hmem]
    | none =>
      by_cases hx : x = c
      · simp [hx]
      · have := ih.mp hrec
        simp [hx, this, Ne.symm hx]

theorem dropWhile_eq_self_of_all {p : Char → Bool} {s : Str}
    (h : ∀ x ∈ s, p x = false) : s.dropWhile p = s := by
  cases s with
  | nil => rfl
  | cons x xs => rw [List.dropWhile_cons, if_neg (by simp [h x (List.mem_cons_self _ _)])]

theorem trimSpace_of_no_space {s : Str} (h : ∀ x ∈ s, isSpaceGo x = false) :
    trimSpace s = s := by
  rw [trimSpace, dropWhile_eq_self_of_all h,
    dropWhile_eq_self_of_all (fun x hx => h x (List.mem_reverse.mp hx)), List.reverse_reverse]

theorem fieldsAux_of_no_space {s : Str} (acc : Str)
    (h : ∀ x ∈ s, isSpaceGo x = false) (hne : acc ≠ [] ∨ s ≠ []) :
    fieldsAux s acc = [acc.reverse ++ s] := by
  induction s generalizing acc with
  | nil =>
    rcases hne with hacc | hs
    · rw [fieldsAux, if_neg (by simpa [List.isEmpty_iff] using hacc)]
      simp
    · exact absurd rfl hs
  | cons x xs ih =>
    rw [fieldsAux, if_neg (by simp [h x (List.mem_cons_self _ _)])]
    rw [ih (x :: acc) (fun y hy => h y (List.mem_cons_of_mem _ hy)) (Or.inl (by simp))]
    simp

theorem fieldsGo_of_no_space {s : Str} (h : ∀ x ∈ s, isSpaceGo x = false) (hne : s ≠ []) :
    fieldsGo s = [s] := by
  rw [fieldsGo, fieldsAux_of_no_space [] h (Or.inr hne)]
  simp

theorem startsWith_single_iff {s : Str} {c : Char} :
    startsWith s [c] = true ↔ ∃ t, s = c :: t := by
  cases s with
  | nil => simp [startsWith]
  | cons d t =>
    rw [startsWith]
    cases d' : startsWith t []
    · cases t <;> simp [startsWith] at d'
    · simp only [Bool.and_true, beq_iff_eq]
      constructor
      · rintro rfl; exact ⟨t, rfl⟩
      · rintro ⟨t', ht⟩; cases ht; rfl

/-! ### Character-level lemmas -/

theorem toNat_ofNat_valid {n : Nat} (h : n.isValidChar) : (Char.ofNat n).toNat = n := by
  rw [Char.ofNat, dif_pos h]
  rfl

theorem char_le_iff_toNat {a b : Char} : a ≤ b ↔ a.toNat ≤ b.toNat := Iff.rfl

theorem char_eq_iff_toNat {a b : Char} : a = b ↔ a.toNat = b.toNat := by
  constructor
  · rintro rfl; rfl
  · intro h
    exact Char.eq_of_val_eq (UInt32.eq_of_toBitVec_eq (BitVec.eq_of_toNat_eq h))

theorem lowerChar_toNat (c : Char) :
    (lowerChar c).toNat = if 'A' ≤ c ∧ c ≤ 'Z' then c.toNat + 32 else c.toNat := by
  rw [lowerChar]
  by_cases h : 'A' ≤ c ∧ c ≤ 'Z'
  · rw [if_pos h, if_pos h]
    have h90 : c.toNat ≤ 90 := char_le_iff_toNat.mp h.2
    exact toNat_ofNat_valid (Or.inl (by omega))
  · rw [if_neg h, if_neg h]

theorem upper_iff_toNat {c : Char} : ('A' ≤ c ∧ c ≤ 'Z') ↔ (65 ≤ c.toNat ∧ c.toNat ≤ 90) := by
  rw [char_le_iff_toNat, char_le_iff_toNat]
  exact Iff.rfl

theorem lowerChar_lowerChar (c : Char) : lowerChar (lowerChar c) = lowerChar c := by
  by_cases h : 'A' ≤ c ∧ c ≤ 'Z'
  · have h1 : (lowerChar c).toNat = c.toNat + 32 := by rw [lowerChar_toNat, if_pos h]
    have h65 : 65 ≤ c.toNat := char_le_iff_toNat.mp h.1
    have h90 : c.toNat ≤ 90 := char_le_iff_toNat.mp h.2
    have hrw : lowerChar (lowerChar c) =
        if 'A' ≤ lowerChar c ∧ lowerChar c ≤ 'Z' then
          Char.ofNat ((lowerChar c).toNat + 32)
        else lowerChar c := rfl
    rw [hrw, if_neg]
    rw [upper_iff_toNat, h1]
    omega
  · have hfix : lowerChar c = c := by rw [lowerChar, if_neg h]
    rw [hfix, hfix]

theorem toLowerGo_toLowerGo (s : Str) : toLowerGo (toLowerGo s) = toLowerGo s := by
  simp only [toLowerGo, List.map_map]
  exact List.map_congr_left (fun c _ => lowerChar_lowerChar c)

theorem lowerChar_ascii {c : Char} (h : c.toNat < 128) : (lowerChar c).toNat < 128 := by
  rw [lowerChar_toNat]
  by_cases hu : 'A' ≤ c ∧ c ≤ 'Z'
  · rw [if_pos hu]
    have := upper_iff_toNat.mp hu
    omega
  · rw [if_neg hu]; exact h

theorem lowerChar_eq_iff_of_fixed {c d : Char}
    (h1 : ¬(97 ≤ d.toNat ∧ d.toNat ≤ 122)) (h2 : ¬(65 ≤ d.toNat ∧ d.toNat ≤ 90)) :
    lowerChar c = d ↔ c = d := by
  constructor
  · intro h
    by_cases hu : 'A' ≤ c ∧ c ≤ 'Z'
    · exfalso
      have hup := upper_iff_toNat.mp hu
      have : (lowerChar c).toNat = c.toNat + 32 := by rw [lowerChar_toNat, if_pos hu]
      rw [h] at this
      omega
    · rwa [lowerChar, if_neg hu] at h
  · rintro rfl
    rw [lowerChar, if_neg]
    intro hu
    exact h2 (upper_iff_toNat.mp hu)

theorem isSpaceGo_toNat_range {c : Char} (h : isSpaceGo c = true) :
    c.toNat ≤ 32 ∨ 122 < c.toNat := by
  simp only [isSpaceGo, List.mem_cons, List.not_mem_nil, or_false,
    decide_eq_true_eq] at h
  rcases h with rfl | rfl | rfl | rfl | rfl | rfl | rfl | rfl | rfl | rfl | rfl | rfl |
    rfl | rfl | rfl | rfl | rfl | rfl | rfl | rfl | rfl | rfl | rfl | rfl | rfl <;> decide

theorem isSpaceGo_lowerChar (c : Char) : isSpaceGo (lowerChar c) = isSpaceGo c := by
  by_cases hu : 'A' ≤ c ∧ c ≤ 'Z'
  · have hup := upper_iff_toNat.mp hu
    have h1 : (lowerChar c).toNat = c.toNat + 32 := by rw [lowerChar_toNat, if_pos hu]
    have l : isSpaceGo (lowerChar c) = false := by
      cases hs : isSpaceGo (lowerChar c)
      · rfl
      · have := isSpaceGo_toNat_range hs
        omega
    have r : isSpaceGo c = false := by
      cases hs : isSpaceGo c
      · rfl
      · have := isSpaceGo_toNat_range hs
        omega
    rw [l, r]
  · rw [lowerChar, if_neg hu]

theorem isDigit_iff_toNat {c : Char} : c.isDigit = true ↔ 48 ≤ c.toNat ∧ c.toNat ≤ 57 := by
  simp only [Char.isDigit, Bool.and_eq_true, decide_eq_true_eq, ge_iff_le]
  exact Iff.rfl

theorem isDigit_lowerChar (c : Char) : (lowerChar c).isDigit = c.isDigit := by
  by_cases hu : 'A' ≤ c ∧ c ≤ 'Z'
  · have hup := upper_iff_toNat.mp hu
    have h1 : (lowerChar c).toNat = c.toNat + 32 := by rw [lowerChar_toNat, if_pos hu]
    have l : (lowerChar c).isDigit = false := by
      cases hs : (lowerChar c).isDigit
      · rfl
      · have := isDigit_iff_toNat.mp hs
        omega
    have r : c.isDigit = false := by
      cases hs : c.isDigit
      · rfl
      · have := isDigit_iff_toNat.mp hs
        omega
    rw [l, r]
  · rw [lowerChar, if_neg hu]

theorem lowerChar_of_digit {c : Char} (h : c.isDigit = true) : lowerChar c = c := by
  have := isDigit_iff_toNat.mp h
  rw [lowerChar, if_neg]
  intro hu
  have := upper_iff_toNat.mp hu
  omega

/-! ### Decimal and hex digit roundtrips -/

theorem decDigit_toNat {d : Nat} (h : d < 10) : (decDigit d).toNat = 48 + d := by
  rw [decDigit]
  exact toNat_ofNat_valid (Or.inl (by change 48 + d < 55296; omega))

theorem decDigit_isDigit {d : Nat} (h : d < 10) : (decDigit d).isDigit = true := by
  rw [isDigit_iff_toNat, decDigit_toNat h]
  omega

theorem hexDigit_toNat {d : Nat} (h : d < 16) :
    (hexDigit d).toNat = if d < 10 then 48 + d else 87 + d := by
  rw [hexDigit]
  by_cases h10 : d < 10
  · rw [if_pos h10, if_pos h10, decDigit_toNat h10]
  · rw [if_neg h10, if_neg h10]
    have : 'a'.toNat + d - 10 = 87 + d := by change 97 + d - 10 = 87 + d; omega
    rw [this]
    exact toNat_ofNat_valid (Or.inl (by omega))

theorem isHexLower_iff_toNat {c : Char} :
    isHexLower c = true ↔ (48 ≤ c.toNat ∧ c.toNat ≤ 57) ∨ (97 ≤ c.toNat ∧ c.toNat ≤ 102) := by
  rw [isHexLower]
  simp only [Bool.or_eq_true, decide_eq_true_eq, isDigit_iff_toNat]
  constructor
  · rintro (h | h)
    · exact Or.inl h
    · exact Or.inr ⟨char_le_iff_toNat.mp h.1, char_le_iff_toNat.mp h.2⟩
  · rintro (h | h)
    · exact Or.inl h
    · exact Or.inr ⟨char_le_iff_toNat.mpr h.1, char_le_iff_toNat.mpr h.2⟩

theorem hexDigit_isHexLower {d : Nat} (h : d < 16) : isHexLower (hexDigit d) = true := by
  rw [isHexLower_iff_toNat, hexDigit_toNat h]
  by_cases h10 : d < 10
  · rw [if_pos h10]; omega
  · rw [if_neg h10]; omega

theorem hexValD_hexDigit {d : Nat} (h : d < 16) : hexValD (hexDigit d) = d := by
  have ht := hexDigit_toNat h
  have ha : 'a'.toNat = 97 := rfl
  have h0 : '0'.toNat = 48 := rfl
  by_cases h10 : d < 10
  · rw [if_pos h10] at ht
    have hd : (hexDigit d).isDigit = true := isDigit_iff_toNat.mpr (by omega)
    rw [hexValD, if_pos hd, h0]
    omega
  · rw [if_neg h10] at ht
    have hd : (hexDigit d).isDigit = false := by
      cases hh : (hexDigit d).isDigit
      · rfl
      · have := isDigit_iff_toNat.mp hh
        omega
    rw [hexValD, if_neg (by simp [hd]),
      if_pos ⟨char_le_iff_toNat.mpr (by rw [ht]; change 97 ≤ 87 + d; omega),
        char_le_iff_toNat.mpr (by rw [ht]; change 87 + d ≤ 102; omega)⟩,
      ha]
    omega

theorem parseDecOctet_decStr {n : Nat} (h : n < 256) : parseDecOctet (decStr n) = some n := by
  have h0 : '0'.toNat = 48 := rfl
  by_cases h10 : n < 10
  · have hd := decDigit_isDigit h10
    have ht := decDigit_toNat h10
    rw [decStr, if_pos h10, parseDecOctet]
    rw [if_neg (by simp), if_neg (by simp [hd]), if_neg (by simp)]
    simp only [List.foldl, h0]
    rw [if_pos (by omega)]
    congr 1
    omega
  · by_cases h100 : n < 100
    · have hda := decDigit_isDigit (d := n / 10) (by omega)
      have hdb := decDigit_isDigit (d := n % 10) (by omega)
      have hta := decDigit_toNat (d := n / 10) (by omega)
      have htb := decDigit_toNat (d := n % 10) (by omega)
      have hhead : decDigit (n / 10) ≠ '0' := by
        intro he
        have he2 := char_eq_iff_toNat.mp he
        rw [hta] at he2
        change 48 + n / 10 = 48 at he2
        omega
      rw [decStr, if_neg h10, if_pos h100, parseDecOctet]
      rw [if_neg (by simp), if_neg (by simp [hda, hdb]), if_neg (by simp [hhead])]
      simp only [List.foldl, h0]
      rw [if_pos (by omega)]
      congr 1
      omega
    · have hda := decDigit_isDigit (d := n / 100) (by omega)
      have hdb := decDigit_isDigit (d := n / 10 % 10) (by omega)
      have hdc := decDigit_isDigit (d := n % 10) (by omega)
      have hta := decDigit_toNat (d := n / 100) (by omega)
      have htb := decDigit_toNat (d := n / 10 % 10) (by omega)
      have htc := decDigit_toNat (d := n % 10) (by omega)
      have hhead : decDigit (n / 100) ≠ '0' := by
        intro he
        have he2 := char_eq_iff_toNat.mp he
        rw [hta] at he2
        change 48 + n / 100 = 48 at he2
        omega
      rw [decStr, if_neg h10, if_neg h100, parseDecOctet]
      rw [if_neg (by simp), if_neg (by simp [hda, hdb, hdc]), if_neg (by simp [hhead])]
      simp only [List.foldl, h0]
      rw [if_pos (by omega)]
      congr 1
      omega

theorem parseHexGroup_hexStr16 {n : Nat} (h : n < 65536) :
    parseHexGroup (hexStr16 n) = some n := by
  by_cases h16 : n < 16
  · have hx := hexDigit_isHexLower (d := n) h16
    have hv := hexValD_hexDigit (d := n) h16
    rw [hexStr16, if_pos h16, parseHexGroup]
    rw [if_neg (by simp), if_neg (by simp [hx])]
    simp only [List.foldl, hv]
    rw [if_pos (by omega)]
    congr 1
    omega
  · by_cases h256 : n < 256
    · have hxa := hexDigit_isHexLower (d := n / 16) (by omega)
      have hxb := hexDigit_isHexLower (d := n % 16) (by omega)
      have hva := hexValD_hexDigit (d := n / 16) (by omega)
      have hvb := hexValD_hexDigit (d := n % 16) (by omega)
      rw [hexStr16, if_neg h16, if_pos h256, parseHexGroup]
      rw [if_neg (by simp), if_neg (by simp [hxa, hxb])]
      simp only [List.foldl, hva, hvb]
      rw [if_pos (by omega)]
      congr 1
      omega
    · by_cases h4096 : n < 4096
      · have hxa := hexDigit_isHexLower (d := n / 256) (by omega)
        have hxb := hexDigit_isHexLower (d := n / 16 % 16) (by omega)
        have hxc := hexDigit_isHexLower (d := n % 16) (by omega)
        have hva := hexValD_hexDigit (d := n / 256) (by omega)
        have hvb := hexValD_hexDigit (d := n / 16 % 16) (by omega)
        have hvc := hexValD_hexDigit (d := n % 16) (by omega)
        rw [hexStr16, if_neg h16, if_neg h256, if_pos h4096, parseHexGroup]
        rw [if_neg (by simp), if_neg (by simp [hxa, hxb, hxc])]
        simp only [List.foldl, hva, hvb, hvc]
        rw [if_pos (by omega)]
        congr 1
        omega
      · have hxa := hexDigit_isHexLower (d := n / 4096) (by omega)
        have hxb := hexDigit_isHexLower (d := n / 256 % 16) (by omega)
        have hxc := hexDigit_isHexLower (d := n / 16 % 16) (by omega)
        have hxd := hexDigit_isHexLower (d := n % 16) (by omega)
        have hva := hexValD_hexDigit (d := n / 4096) (by omega)
        have hvb := hexValD_hexDigit (d := n / 256 % 16) (by omega)
        have hvc := hexValD_hexDigit (d := n / 16 % 16) (by omega)
        have hvd := hexValD_hexDigit (d := n % 16) (by omega)
        rw [hexStr16, if_neg h16, if_neg h256, if_neg h4096, parseHexGroup]
        rw [if_neg (by simp), if_neg (by simp [hxa, hxb, hxc, hxd])]
        simp only [List.foldl, hva, hvb, hvc, hvd]
        rw [if_pos (by omega)]
        congr 1
        omega

theorem decStr_all_digits {n : Nat} (h : n < 256) :
    ∀ c ∈ decStr n, c.isDigit = true := by
  intro c hc
  rw [decStr] at hc
  by_cases h10 : n < 10
  · rw [if_pos h10] at hc
    obtain rfl : c = decDigit n := by simpa using hc
    exact decDigit_isDigit h10
  · by_cases h100 : n < 100
    · rw [if_neg h10, if_pos h100] at hc
      rcases (by simpa using hc : c = decDigit (n / 10) ∨ c = decDigit (n % 10)) with rfl | rfl
      · exact decDigit_isDigit (by omega)
      · exact decDigit_isDigit (by omega)
    · rw [if_neg h10, if_neg h100] at hc
      rcases (by simpa using hc :
          c = decDigit (n / 100) ∨ c = decDigit (n / 10 % 10) ∨ c = decDigit (n % 10)) with
        rfl | rfl | rfl
      · exact decDigit_isDigit (by omega)
      · exact decDigit_isDigit (by omega)
      · exact decDigit_isDigit (by omega)

theorem decStr_ne_nil (n : Nat) : decStr n ≠ [] := by
  rw [decStr]
  by_cases h10 : n < 10
  · simp [h10]
  · by_cases h100 : n < 100 <;> simp [h10, h100]

theorem hexStr16_all_hex {n : Nat} (h : n < 65536) :
    ∀ c ∈ hexStr16 n, isHexLower c = true := by
  intro c hc
  rw [hexStr16] at hc
  by_cases h16 : n < 16
  · rw [if_pos h16] at hc
    obtain rfl : c = hexDigit n := by simpa using hc
    exact hexDigit_isHexLower h16
  · by_cases h256 : n < 256
    · rw [if_neg h16, if_pos h256] at hc
      rcases (by simpa using hc : c = hexDigit (n / 16) ∨ c = hexDigit (n % 16)) with rfl | rfl
      · exact hexDigit_isHexLower (by omega)
      · exact hexDigit_isHexLower (by omega)
    · by_cases h4096 : n < 4096
      · rw [if_neg h16, if_neg h256, if_pos h4096] at hc
        rcases (by simpa using hc : c = hexDigit (n / 256) ∨ c = hexDigit (n / 16 % 16) ∨
            c = hexDigit (n % 16)) with rfl | rfl | rfl
        · exact hexDigit_isHexLower (by omega)
        · exact hexDigit_isHexLower (by omega)
        · exact hexDigit_isHexLower (by omega)
      · rw [if_neg h16, if_neg h256, if_neg h4096] at hc
        rcases (by simpa using hc : c = hexDigit (n / 4096) ∨ c = hexDigit (n / 256 % 16) ∨
            c = hexDigit (n / 16 % 16) ∨ c = hexDigit (n % 16)) with rfl | rfl | rfl | rfl
        · exact hexDigit_isHexLower (by omega)
        · exact hexDigit_isHexLower (by omega)
        · exact hexDigit_isHexLower (by omega)
        · exact hexDigit_isHexLower (by omega)

theorem hexStr16_ne_nil (n : Nat) : hexStr16 n ≠ [] := by
  rw [hexStr16]
  by_cases h16 : n < 16
  · simp [h16]
  · by_cases h256 : n < 256
    · simp [h16, h256]
    · by_cases h4096 : n < 4096 <;> simp [h16, h256, h4096]

/-! ### Character classes of printed addresses -/

theorem contains_eq_false_iff {l : Str} {a : Char} : l.contains a = false ↔ a ∉ l := by
  induction l with
  | nil => simp
  | cons x xs ih =>
    rw [List.contains_cons]
    by_cases hx : a = x
    · simp [hx]
    · have : (a == x) = false := by simpa using hx
      simp [this, hx, ih]

theorem isHexLower_ne {c : Char} (h : isHexLower c = true) :
    c ≠ ':' ∧ c ≠ '.' ∧ c ≠ '%' ∧ lowerChar c = c ∧ isSpaceGo c = false := by
  have hr := isHexLower_iff_toNat.mp h
  refine ⟨?_, ?_, ?_, ?_, ?_⟩
  · intro he; have := char_eq_iff_toNat.mp he; change c.toNat = 58 at this; omega
  · intro he; have := char_eq_iff_toNat.mp he; change c.toNat = 46 at this; omega
  · intro he; have := char_eq_iff_toNat.mp he; change c.toNat = 37 at this; omega
  · rw [lowerChar, if_neg]
    intro hu
    have := upper_iff_toNat.mp hu
    omega
  · cases hs : isSpaceGo c
    · rfl
    · have := isSpaceGo_toNat_range hs
      omega

theorem isDigit_ne {c : Char} (h : c.isDigit = true) :
    c ≠ ':' ∧ c ≠ '.' ∧ c ≠ '%' ∧ lowerChar c = c ∧ isSpaceGo c = false := by
  have hr := isDigit_iff_toNat.mp h
  refine ⟨?_, ?_, ?_, lowerChar_of_digit h, ?_⟩
  · intro he; have := char_eq_iff_toNat.mp he; change c.toNat = 58 at this; omega
  · intro he; have := char_eq_iff_toNat.mp he; change c.toNat = 46 at this; omega
  · intro he; have := char_eq_iff_toNat.mp he; change c.toNat = 37 at this; omega
  · cases hs : isSpaceGo c
    · rfl
    · have := isSpaceGo_toNat_range hs
      omega

theorem mem_intercalateChar_elim {c x : Char} {parts : List Str}
    (hx : x ∈ intercalateChar c parts) : x = c ∨ ∃ p ∈ parts, x ∈ p := by
  induction parts with
  | nil => simp [intercalateChar] at hx
  | cons p rest ih =>
    cases rest with
    | nil =>
      simp only [intercalateChar] at hx
      exact Or.inr ⟨p, by simp, hx⟩
    | cons q rest2 =>
      have hrw : intercalateChar c (p :: q :: rest2) =
          p ++ c :: intercalateChar c (q :: rest2) := rfl
      rw [hrw] at hx
      rcases List.mem_append.mp hx with hp | hcx
      · exact Or.inr ⟨p, by simp, hp⟩
      · rcases List.mem_cons.mp hcx with rfl | hx2
        · exact Or.inl rfl
        · rcases ih hx2 with h | ⟨r, hr, hxr⟩
          · exact Or.inl h
          · exact Or.inr ⟨r, List.mem_cons_of_mem _ hr, hxr⟩

theorem sep_mem_intercalateChar {c : Char} {parts : List Str}
    (h : 2 ≤ parts.length) : c ∈ intercalateChar c parts := by
  cases parts with
  | nil => simp at h
  | cons p rest =>
    cases rest with
    | nil => simp at h
    | cons q rest2 =>
      have hrw : intercalateChar c (p :: q :: rest2) =
          p ++ c :: intercalateChar c (q :: rest2) := rfl
      rw [hrw]
      exact List.mem_append_right _ (List.mem_cons_self _ _)

/-! ### Group sequences and byte conversions -/

theorem parseGroupSeq_map_hexStr16 {gs : List Nat} (hb : ∀ g ∈ gs, g < 65536)
    (v4ok : Bool) : parseGroupSeq v4ok (gs.map hexStr16) = some gs := by
  induction gs with
  | nil => rfl
  | cons g rest ih =>
    have hg : g < 65536 := hb g (List.mem_cons_self _ _)
    have hrest : ∀ x ∈ rest, x < 65536 := fun x hx => hb x (List.mem_cons_of_mem _ hx)
    cases rest with
    | nil =>
      have hnodot : (hexStr16 g).contains '.' = false :=
        contains_eq_false_iff.mpr
          (fun hmem => (isHexLower_ne (hexStr16_all_hex hg _ hmem)).2.1 rfl)
      rw [List.map_cons, List.map_nil, parseGroupSeq, hnodot]
      simp [parseHexGroup_hexStr16 hg]
    | cons r rest2 =>
      rw [List.map_cons, List.map_cons, parseGroupSeq, parseHexGroup_hexStr16 hg,
        ← List.map_cons, ih hrest]

theorem takeWhile_append_cons_false {α : Type} {p : α → Bool} {A : List α} {b : α}
    {rest : List α} (hA : ∀ a ∈ A, p a = true) (hb : p b = false) :
    (A ++ b :: rest).takeWhile p = A := by
  induction A with
  | nil => simp [List.takeWhile_cons, hb]
  | cons a A ih =>
    rw [List.cons_append, List.takeWhile_cons, hA a (List.mem_cons_self _ _)]
    rw [ih (fun x hx => hA x (List.mem_cons_of_mem _ hx))]
    simp

theorem groupsToBytes_cons (g : Nat) (gs : List Nat) :
    groupsToBytes (g :: gs) = g / 256 :: g % 256 :: groupsToBytes gs := by
  simp [groupsToBytes]

theorem groupsToBytes_bytesToGroups :
    ∀ (b : List Nat), (∀ x ∈ b, x < 256) → b.length % 2 = 0 →
      groupsToBytes (bytesToGroups b) = b
  | [], _, _ => rfl
  | [x], _, he => by simp at he
  | x :: y :: rest, h, he => by
    have hx : x < 256 := h x (List.mem_cons_self _ _)
    have hy : y < 256 := h y (List.mem_cons_of_mem _ (List.mem_cons_self _ _))
    rw [bytesToGroups, groupsToBytes_cons,
      groupsToBytes_bytesToGroups rest
        (fun z hz => h z (List.mem_cons_of_mem _ (List.mem_cons_of_mem _ hz)))
        (by simp only [List.length_cons] at he; omega)]
    have h1 : (256 * x + y) / 256 = x := by omega
    have h2 : (256 * x + y) % 256 = y := by omega
    rw [h1, h2]

theorem bytesToGroups_length :
    ∀ (b : List Nat), (bytesToGroups b).length = (b.length + 1) / 2
  | [] => rfl
  | [_] => by simp [bytesToGroups]
  | _ :: _ :: rest => by
    rw [bytesToGroups, List.length_cons, bytesToGroups_length rest]
    simp only [List.length_cons]
    omega

theorem bytesToGroups_bounds :
    ∀ (b : List Nat), (∀ x ∈ b, x < 256) → ∀ g ∈ bytesToGroups b, g < 65536
  | [], _, g, hg => by simp [bytesToGroups] at hg
  | [x], h, g, hg => by
    obtain rfl : g = 256 * x := by simpa [bytesToGroups] using hg
    have := h x (List.mem_cons_self _ _)
    omega
  | x :: y :: rest, h, g, hg => by
    rw [bytesToGroups, List.mem_cons] at hg
    rcases hg with rfl | hg
    · have hx := h x (List.mem_cons_self _ _)
      have hy := h y (List.mem_cons_of_mem _ (List.mem_cons_self _ _))
      omega
    · exact bytesToGroups_bounds rest
        (fun z hz => h z (List.mem_cons_of_mem _ (List.mem_cons_of_mem _ hz))) g hg

/-! ### The best zero run -/

theorem mem_zeroRunStarts {gs : List Nat} {i : Nat} (h : i ∈ zeroRunStarts gs) :
    i < gs.length ∧ gs.get? i = some 0 := by
  rw [zeroRunStarts, List.mem_filter] at h
  obtain ⟨hr, hp⟩ := h
  simp only [decide_eq_true_eq] at hp
  exact ⟨List.mem_range.mp hr, hp.1⟩

theorem get_of_lt_takeWhile_length {α : Type} {p : α → Bool} :
    ∀ {l : List α} {t : Nat}, t < (l.takeWhile p).length →
      ∃ a, l.get? t = some a ∧ p a = true := by
  intro l
  induction l with
  | nil => intro t ht; simp at ht
  | cons x xs ih =>
    intro t ht
    rw [List.takeWhile_cons] at ht
    cases hp : p x with
    | false => rw [hp] at ht; simp at ht
    | true =>
      simp only [hp, if_true, List.length_cons] at ht
      cases t with
      | zero => exact ⟨x, rfl, hp⟩
      | succ t2 => exact ih (by omega)

theorem runLenFrom_zero {gs : List Nat} {i t : Nat} (ht : t < runLenFrom gs i) :
    gs.get? (i + t) = some 0 := by
  rw [runLenFrom] at ht
  obtain ⟨a, hget, hp⟩ := get_of_lt_takeWhile_length ht
  obtain rfl : a = 0 := by simpa using hp
  rw [← hget, List.get?_drop]

theorem runLenFrom_le (gs : List Nat) (i : Nat) :
    runLenFrom gs i ≤ gs.length - i := by
  rw [runLenFrom]
  calc ((gs.drop i).takeWhile (· = 0)).length ≤ (gs.drop i).length :=
        (List.takeWhile_prefix _).length_le
    _ = gs.length - i := List.length_drop i gs

theorem bestRunFold_inv (gs : List Nat) :
    ∀ (is : List Nat) (acc : Option (Nat × Nat)),
      (∀ bi bl, acc = some (bi, bl) → bi ∈ zeroRunStarts gs ∧ bl = runLenFrom gs bi) →
      (∀ p ∈ is, p ∈ zeroRunStarts gs) →
      ∀ bi bl, is.foldl (bestRunFold gs) acc = some (bi, bl) →
        bi ∈ zeroRunStarts gs ∧ bl = runLenFrom gs bi := by
  intro is
  induction is with
  | nil => intro acc hacc _ bi bl h; exact hacc bi bl h
  | cons i rest ih =>
    intro acc hacc hmem bi bl h
    rw [List.foldl_cons] at h
    refine ih (bestRunFold gs acc i) ?_ (fun p hp => hmem p (List.mem_cons_of_mem _ hp)) bi bl h
    intro bi2 bl2 h2
    cases acc with
    | none =>
      simp only [bestRunFold] at h2
      cases h2
      exact ⟨hmem i (List.mem_cons_self _ _), rfl⟩
    | some p =>
      obtain ⟨pi, pl⟩ := p
      simp only [bestRunFold] at h2
      by_cases hcmp : runLenFrom gs i > pl
      · rw [if_pos hcmp] at h2
        cases h2
        exact ⟨hmem i (List.mem_cons_self _ _), rfl⟩
      · rw [if_neg hcmp] at h2
        cases h2
        exact hacc _ _ rfl

theorem bestRun_spec {gs : List Nat} {i j : Nat} (h : bestRun gs = some (i, j)) :
    i + 2 ≤ j ∧ j ≤ gs.length ∧ ∀ t, i ≤ t → t < j → gs.get? t = some 0 := by
  rw [bestRun] at h
  cases hfold : (zeroRunStarts gs).foldl (bestRunFold gs) none with
  | none => rw [hfold] at h; exact absurd h (by simp)
  | some p =>
    obtain ⟨bi, bl⟩ := p
    rw [hfold] at h
    have h : (if bl ≥ 2 then some (bi, bi + bl) else none) = some (i, j) := h
    by_cases hge : bl ≥ 2
    · rw [if_pos hge] at h
      cases h
      obtain ⟨hmem, hlen⟩ := bestRunFold_inv gs (zeroRunStarts gs) none
        (by intro _ _ hx; exact absurd hx (by simp)) (fun p hp => hp) i bl hfold
      obtain ⟨hil, -⟩ := mem_zeroRunStarts hmem
      refine ⟨by omega, ?_, ?_⟩
      · have := runLenFrom_le gs i
        omega
      · intro t hit htj
        have hlt : t - i < runLenFrom gs i := by omega
        have hz := runLenFrom_zero hlt
        rwa [Nat.add_sub_cancel' hit] at hz
    · rw [if_neg hge] at h
      exact absurd h (by simp)

/-! ### Well-formed addresses and the print/parse roundtrip -/

theorem parseDecOctet_le {f : Str} {v : Nat} (h : parseDecOctet f = some v) : v ≤ 255 := by
  rw [parseDecOctet] at h
  split at h
  · exact absurd h (by simp)
  · split at h
    · exact absurd h (by simp)
    · split at h
      · exact absurd h (by simp)
      · dsimp only at h
        split at h
        · rename_i hle
          cases h
          exact hle
        · exact absurd h (by simp)

theorem parseHexGroup_le {f : Str} {v : Nat} (h : parseHexGroup f = some v) : v ≤ 65535 := by
  rw [parseHexGroup] at h
  split at h
  · exact absurd h (by simp)
  · split at h
    · exact absurd h (by simp)
    · dsimp only at h
      split at h
      · rename_i hle
        cases h
        exact hle
      · exact absurd h (by simp)

theorem parseV4Quad_le {s : Str} {a b c d : Nat} (h : parseV4Quad s = some (a, b, c, d)) :
    a ≤ 255 ∧ b ≤ 255 ∧ c ≤ 255 ∧ d ≤ 255 := by
  rw [parseV4Quad] at h
  split at h
  · rename_i pa pb pc pd
    split at h
    · rename_i x y z w hx hy hz hw
      obtain ⟨rfl, rfl, rfl, rfl⟩ : x = a ∧ y = b ∧ z = c ∧ w = d := by
        have := Option.some.inj h
        simp only [Prod.mk.injEq] at this
        tauto
      exact ⟨parseDecOctet_le hx, parseDecOctet_le hy, parseDecOctet_le hz,
        parseDecOctet_le hw⟩
    · exact absurd h (by simp)
  · exact absurd h (by simp)

theorem parseGroupSeq_bounds {v4ok : Bool} :
    ∀ {fs : List Str} {gs : List Nat}, parseGroupSeq v4ok fs = some gs →
      ∀ g ∈ gs, g < 65536 := by
  intro fs
  induction fs with
  | nil =>
    intro gs h g hg
    cases h
    simp at hg
  | cons f rest ih =>
    intro gs h g hg
    cases rest with
    | nil =>
      rw [parseGroupSeq] at h
      split at h
      · cases hq : parseV4Quad f with
        | none => rw [hq] at h; exact absurd h (by simp)
        | some quad =>
          obtain ⟨a, b, c, d⟩ := quad
          rw [hq] at h
          cases h
          obtain ⟨ha, hb, hc, hd⟩ := parseV4Quad_le hq
          rcases (by simpa using hg : g = 256 * a + b ∨ g = 256 * c + d) with rfl | rfl <;>
            omega
      · cases hx : parseHexGroup f with
        | none => rw [hx] at h; exact absurd h (by simp)
        | some v =>
          rw [hx] at h
          cases h
          obtain rfl : g = v := by simpa using hg
          have := parseHexGroup_le hx
          omega
    | cons f2 rest2 =>
      rw [parseGroupSeq] at h
      split at h
      · rename_i v vs hv hvs
        cases h
        rcases List.mem_cons.mp hg with rfl | hg2
        · have := parseHexGroup_le hv
          omega
        · exact ih hvs g hg2
      · exact absurd h (by simp)

theorem groupsToBytes_length (gs : List Nat) :
    (groupsToBytes gs).length = 2 * gs.length := by
  induction gs with
  | nil => rfl
  | cons g rest ih =>
    rw [groupsToBytes_cons]
    simp only [List.length_cons, ih]
    omega

theorem groupsToBytes_bounds {gs : List Nat} (h : ∀ g ∈ gs, g < 65536) :
    ∀ x ∈ groupsToBytes gs, x < 256 := by
  induction gs with
  | nil => intro x hx; simp [groupsToBytes] at hx
  | cons g rest ih =>
    intro x hx
    rw [groupsToBytes_cons] at hx
    have hg := h g (List.mem_cons_self _ _)
    rcases List.mem_cons.mp hx with rfl | hx2
    · omega
    · rcases List.mem_cons.mp hx2 with rfl | hx3
      · omega
      · exact ih (fun y hy => h y (List.mem_cons_of_mem _ hy)) x hx3

theorem list_len4 {l : List Nat} (h : l.length = 4) : ∃ x y z w, l = [x, y, z, w] := by
  match l, h with
  | [x, y, z, w], _ => exact ⟨x, y, z, w, rfl⟩

theorem endsWith_singleton_iff {s : Str} {c : Char} :
    endsWith s [c] = true ↔ s.getLast? = some c := by
  rw [endsWith]
  have : ([c] : Str).reverse = [c] := rfl
  rw [this, startsWith_single_iff]
  constructor
  · rintro ⟨t, ht⟩
    rw [← List.head?_reverse, ht]
    rfl
  · intro h
    rw [← List.head?_reverse] at h
    cases hr : s.reverse with
    | nil => rw [hr] at h; simp at h
    | cons a t =>
      rw [hr] at h
      obtain rfl : a = c := by simpa using h
      exact ⟨t, rfl⟩

theorem find?_dispatch_dot {s : Str} (hdot : '.' ∈ s) (hcol : ':' ∉ s) :
    s.find? (fun c => c == '.' || c == ':') = some '.' := by
  cases hf : s.find? (fun c => c == '.' || c == ':') with
  | none =>
    rw [List.find?_eq_none] at hf
    exact absurd (by simp : (('.' : Char) == '.' || ('.' : Char) == ':') = true)
      (hf '.' hdot)
  | some c =>
    have hp := List.find?_some hf
    have hm := List.mem_of_find?_eq_some hf
    rcases (by simpa using hp : c = '.' ∨ c = ':') with rfl | rfl
    · rfl
    · exact absurd hm hcol

theorem find?_dispatch_colon {s : Str} (hcol : ':' ∈ s) (hdot : '.' ∉ s) :
    s.find? (fun c => c == '.' || c == ':') = some ':' := by
  cases hf : s.find? (fun c => c == '.' || c == ':') with
  | none =>
    rw [List.find?_eq_none] at hf
    exact absurd (by simp : ((':' : Char) == '.' || (':' : Char) == ':') = true)
      (hf ':' hcol)
  | some c =>
    have hp := List.find?_some hf
    have hm := List.mem_of_find?_eq_some hf
    rcases (by simpa using hp : c = '.' ∨ c = ':') with rfl | rfl
    · exact absurd hm hdot
    · rfl

theorem takeWhile_eq_self_of_all {α : Type} {p : α → Bool} {l : List α}
    (h : ∀ a ∈ l, p a = true) : l.takeWhile p = l := by
  induction l with
  | nil => rfl
  | cons x xs ih =>
    rw [List.takeWhile_cons, h x (List.mem_cons_self _ _), if_pos rfl,
      ih (fun a ha => h a (List.mem_cons_of_mem _ ha))]

theorem segment_eq {gs : List Nat} {i j : Nat} (hj : j ≤ gs.length) (hij : i ≤ j)
    (hz : ∀ t, i ≤ t → t < j → gs.get? t = some 0) :
    gs.take i ++ (List.replicate (j - i) 0 ++ gs.drop j) = gs := by
  conv_rhs => rw [← List.take_append_drop i gs]
  congr 1
  have hdd : (gs.drop i).drop (j - i) = gs.drop j := by
    rw [List.drop_drop]
    congr 1
    omega
  have hseg : (gs.drop i).take (j - i) = List.replicate (j - i) 0 := by
    rw [List.eq_replicate]
    constructor
    · rw [List.length_take, List.length_drop]
      omega
    · intro b hb
      obtain ⟨t, ht⟩ := List.mem_iff_get?.mp hb
      have htl : t < j - i := by
        by_contra hc
        rw [List.get?_eq_none.mpr (by rw [List.length_take, List.length_drop]; omega)] at ht
        exact absurd ht (by simp)
      rw [List.get?_take htl, List.get?_drop] at ht
      have := hz (i + t) (by omega) (by omega)
      rw [this] at ht
      exact (Option.some.inj ht).symm
  rw [← hseg, ← hdd, List.take_append_drop]

theorem v4_print_chars {t : List Nat} (h : ∀ x ∈ t, x < 256) :
    ∀ c ∈ intercalateChar '.' (t.map decStr), c.isDigit = true ∨ c = '.' := by
  intro c hc
  rcases mem_intercalateChar_elim hc with rfl | ⟨p, hp, hcp⟩
  · exact Or.inr rfl
  · obtain ⟨n, hn, rfl⟩ := List.mem_map.mp hp
    exact Or.inl (decStr_all_digits (h n hn) c hcp)

theorem parseIP_ipString_v4 {b : List Nat} (hwf : ipWF b) (hv4 : isV4InV6 b = true) :
    parseIP (ipString b) = some b := by
  obtain ⟨hlen, hbound⟩ := hwf
  obtain ⟨x, y, z, w, hdrop⟩ := list_len4 (l := b.drop 12) (by rw [List.length_drop, hlen])
  have htake : b.take 12 = [0, 0, 0, 0, 0, 0, 0, 0, 0, 0, 255, 255] := by
    rw [isV4InV6] at hv4
    exact beq_iff_eq.mp hv4
  have hb : b = v4Mapped x y z w := by
    conv_lhs => rw [← List.take_append_drop 12 b]
    rw [htake, hdrop]
    rfl
  have hx : x < 256 := hbound x (by rw [hb]; simp [v4Mapped])
  have hy : y < 256 := hbound y (by rw [hb]; simp [v4Mapped])
  have hz : z < 256 := hbound z (by rw [hb]; simp [v4Mapped])
  have hw : w < 256 := hbound w (by rw [hb]; simp [v4Mapped])
  have hprint : ipString b = intercalateChar '.' [decStr x, decStr y, decStr z, decStr w] := by
    rw [ipString, if_pos hv4, hdrop]
    rfl
  have hchars := v4_print_chars (t := [x, y, z, w])
    (by intro a ha; rcases (by simpa using ha : a = x ∨ a = y ∨ a = z ∨ a = w) with
      rfl | rfl | rfl | rfl <;> assumption)
  have hdot : '.' ∈ ipString b := by
    rw [hprint]
    exact sep_mem_intercalateChar (by simp)
  have hcol : ':' ∉ ipString b := by
    rw [hprint]
    intro hm
    rcases hchars ':' (by simpa using hm) with hd | he
    · exact absurd hd (by decide)
    · exact absurd he (by decide)
  rw [parseIP, find?_dispatch_dot hdot hcol]
  have hred : (match (some '.' : Option Char) with
      | some c =>
        if c = '.' then
          (parseV4Quad (ipString b)).map (fun (a, b, c, d) => v4Mapped a b c d)
        else parseV6 ((ipString b).map lowerChar)
      | none => none) =
      (parseV4Quad (ipString b)).map (fun (a, b, c, d) => v4Mapped a b c d) := rfl
  rw [hred]
  have hsplit : splitOnChar '.' (ipString b) =
      [decStr x, decStr y, decStr z, decStr w] := by
    rw [hprint]
    refine splitOnChar_intercalateChar ?_ (by simp)
    intro p hp hdp
    rcases (by simpa using hp : p = decStr x ∨ p = decStr y ∨ p = decStr z ∨ p = decStr w)
      with rfl | rfl | rfl | rfl <;>
      [exact absurd (decStr_all_digits hx '.' hdp) (by decide);
       exact absurd (decStr_all_digits hy '.' hdp) (by decide);
       exact absurd (decStr_all_digits hz '.' hdp) (by decide);
       exact absurd (decStr_all_digits hw '.' hdp) (by decide)]
  have hq : parseV4Quad (ipString b) = some (x, y, z, w) := by
    have h1 : parseV4Quad (ipString b) =
        (match parseDecOctet (decStr x), parseDecOctet (decStr y),
            parseDecOctet (decStr z), parseDecOctet (decStr w) with
          | some a, some b, some c, some d => some (a, b, c, d)
          | _, _, _, _ => none) := by
      rw [parseV4Quad, hsplit]
    rw [h1, parseDecOctet_decStr hx, parseDecOctet_decStr hy, parseDecOctet_decStr hz,
      parseDecOctet_decStr hw]
  rw [hq, hb]
  rfl

theorem parseV6_assemble_aux {gs : List Nat} {i j : Nat} (hgl : gs.length = 8)
    (hgb : ∀ g ∈ gs, g < 65536) (hij : i + 2 ≤ j) (hj : j ≤ 8)
    (hz : ∀ t, i ≤ t → t < j → gs.get? t = some 0) :
    v6Assemble ((gs.take i).map hexStr16) ((gs.drop j).map hexStr16) =
      some (groupsToBytes gs) := by
  rw [v6Assemble,
    parseGroupSeq_map_hexStr16 (fun g hg => hgb g (List.mem_of_mem_take hg)) false,
    parseGroupSeq_map_hexStr16 (fun g hg => hgb g (List.mem_of_mem_drop hg)) true]
  have hlt : (gs.take i).length = i := by
    rw [List.length_take, hgl]
    omega
  have hld : (gs.drop j).length = 8 - j := by
    rw [List.length_drop, hgl]
  have hred : (match (some (gs.take i) : Option (List Nat)),
        (some (gs.drop j) : Option (List Nat)) with
      | some gl, some gr =>
        if gl.length + gr.length ≤ 7 then
          some (groupsToBytes (gl ++ List.replicate (8 - (gl.length + gr.length)) 0 ++ gr))
        else none
      | _, _ => none) =
      (if (gs.take i).length + (gs.drop j).length ≤ 7 then
        some (groupsToBytes (gs.take i ++
          List.replicate (8 - ((gs.take i).length + (gs.drop j).length)) 0 ++ gs.drop j))
      else none) := rfl
  rw [hred, hlt, hld, if_pos (by omega)]
  have hcount : 8 - (i + (8 - j)) = j - i := by omega
  rw [hcount, List.append_assoc, segment_eq (by omega) (by omega) hz]

theorem parseIP_eq_parseV6 {s : Str}
    (hchars : ∀ x ∈ s, isHexLower x = true ∨ x = ':') (hcol : ':' ∈ s) :
    parseIP s = parseV6 s := by
  have hdot : '.' ∉ s := fun hx => by
    rcases hchars _ hx with h | h
    · exact absurd h (by decide)
    · exact absurd h (by decide)
  have hlow : s.map lowerChar = s := by
    refine (List.map_congr_left (fun x hx => ?_)).trans (List.map_id s)
    rcases hchars x hx with h | h
    · exact (isHexLower_ne h).2.2.2.1
    · rw [h]
      decide
  rw [parseIP, find?_dispatch_colon hcol hdot]
  have hred : (match (some ':' : Option Char) with
      | some c =>
        if c = '.' then (parseV4Quad s).map (fun (a, b, c, d) => v4Mapped a b c d)
        else parseV6 (s.map lowerChar)
      | none => none) = parseV6 (s.map lowerChar) := rfl
  rw [hred, hlow]

theorem parseV6_compressed {s : Str} (hpc : s.contains '%' = false) {A B : List Str}
    (hA : ∀ f ∈ A, (!f.isEmpty) = true) (hB : ∀ f ∈ B, (!f.isEmpty) = true)
    (hsplit : splitOnChar ':' s =
      (if A.isEmpty then [[]] else A) ++ [] :: (if B.isEmpty then [[]] else B)) :
    parseV6 s = v6Assemble A B := by
  cases A with
  | nil =>
    cases B with
    | nil =>
      simp only [parseV6, hpc, Bool.false_eq_true, if_false, hsplit]
      rfl
    | cons b B2 =>
      obtain ⟨c1, b2, rfl⟩ : ∃ c1 b2, b = c1 :: b2 := by
        cases b with
        | nil => exact absurd (hB [] (List.mem_cons_self _ _)) (by decide)
        | cons c1 b2 => exact ⟨c1, b2, rfl⟩
      simp only [parseV6, hpc, Bool.false_eq_true, if_false, hsplit]
      show (if !((c1 :: b2) :: B2).isEmpty && ((c1 :: b2) :: B2).all (fun f => !f.isEmpty)
          then v6Assemble [] ((c1 :: b2) :: B2) else none) = v6Assemble [] ((c1 :: b2) :: B2)
      rw [List.all_eq_true.mpr hB]
      rfl
  | cons a A2 =>
    obtain ⟨c0, a2, rfl⟩ : ∃ c0 a2, a = c0 :: a2 := by
      cases a with
      | nil => exact absurd (hA [] (List.mem_cons_self _ _)) (by decide)
      | cons c0 a2 => exact ⟨c0, a2, rfl⟩
    cases B with
    | nil =>
      have hsplit2 : splitOnChar ':' s = ((c0 :: a2) :: A2) ++ [] :: [[]] := by
        simpa using hsplit
      simp only [parseV6, hpc, Bool.false_eq_true, if_false, hsplit2]
      rw [takeWhile_append_cons_false hA
        (show (!List.isEmpty ([] : Str)) = false from rfl), List.drop_left]
      rfl
    | cons b B2 =>
      obtain ⟨c1, b2, rfl⟩ : ∃ c1 b2, b = c1 :: b2 := by
        cases b with
        | nil => exact absurd (hB [] (List.mem_cons_self _ _)) (by decide)
        | cons c1 b2 => exact ⟨c1, b2, rfl⟩
      have hsplit2 : splitOnChar ':' s =
          ((c0 :: a2) :: A2) ++ [] :: ((c1 :: b2) :: B2) := by
        simpa using hsplit
      simp only [parseV6, hpc, Bool.false_eq_true, if_false, hsplit2]
      rw [takeWhile_append_cons_false hA
        (show (!List.isEmpty ([] : Str)) = false from rfl), List.drop_left]
      show (if ((c1 :: b2) :: B2).all (fun f => !f.isEmpty)
          then v6Assemble ((c0 :: a2) :: A2) ((c1 :: b2) :: B2) else none) =
        v6Assemble ((c0 :: a2) :: A2) ((c1 :: b2) :: B2)
      rw [List.all_eq_true.mpr hB]
      rfl

theorem splitOnChar_sep_cons (t : Str) :
    splitOnChar ':' (':' :: t) = [] :: splitOnChar ':' t := rfl

theorem parseIP_ipString_v6 {b : List Nat} (hwf : ipWF b) (hv4 : isV4InV6 b = false) :
    parseIP (ipString b) = some b := by
  obtain ⟨hlen, hbound⟩ := hwf
  have hgl : (bytesToGroups b).length = 8 := by rw [bytesToGroups_length, hlen]
  have hgb : ∀ g ∈ bytesToGroups b, g < 65536 := bytesToGroups_bounds b hbound
  have hback : groupsToBytes (bytesToGroups b) = b :=
    groupsToBytes_bytesToGroups b hbound (by rw [hlen])
  have hallmap : ∀ (l : List Nat), ∀ f ∈ l.map hexStr16, (!f.isEmpty) = true := by
    intro l f hf
    obtain ⟨g, hg, rfl⟩ := List.mem_map.mp hf
    cases hxg : hexStr16 g with
    | nil => exact absurd hxg (hexStr16_ne_nil g)
    | cons c cs => rfl
  cases hbr : bestRun (bytesToGroups b) with
  | none =>
    have hps : ipString b = intercalateChar ':' ((bytesToGroups b).map hexStr16) := by
      simp only [ipString, hv4, Bool.false_eq_true, if_false, hbr]
    have hchars : ∀ x ∈ ipString b, isHexLower x = true ∨ x = ':' := by
      rw [hps]
      intro x hx
      rcases mem_intercalateChar_elim hx with h | ⟨p, hp, hxp⟩
      · exact Or.inr h
      · obtain ⟨g, hg, rfl⟩ := List.mem_map.mp hp
        exact Or.inl (hexStr16_all_hex (hgb g hg) x hxp)
    have hcol : ':' ∈ ipString b := by
      rw [hps]
      exact sep_mem_intercalateChar (by rw [List.length_map, hgl]; omega)
    have hpc : (ipString b).contains '%' = false :=
      contains_eq_false_iff.mpr (fun hm => by
        rcases hchars _ hm with h | h
        · exact absurd h (by decide)
        · exact absurd h (by decide))
    have hmapne : (bytesToGroups b).map hexStr16 ≠ [] := by
      intro h
      have h2 := congrArg List.length h
      rw [List.length_map, hgl] at h2
      simp at h2
    have hfields : splitOnChar ':' (ipString b) = (bytesToGroups b).map hexStr16 := by
      rw [hps]
      exact splitOnChar_intercalateChar (fun p hp hcp => by
        obtain ⟨g, hg, rfl⟩ := List.mem_map.mp hp
        exact absurd (hexStr16_all_hex (hgb g hg) ':' hcp) (by decide)) hmapne
    rw [parseIP_eq_parseV6 hchars hcol]
    simp only [parseV6, hpc, Bool.false_eq_true, if_false, hfields,
      takeWhile_eq_self_of_all (hallmap _), List.drop_length]
    rw [parseGroupSeq_map_hexStr16 hgb true]
    show (if (bytesToGroups b).length = 8 then some (groupsToBytes (bytesToGroups b))
        else none) = some b
    rw [if_pos hgl, hback]
  | some ij =>
    obtain ⟨i, j⟩ := ij
    obtain ⟨hij, hj8, hz⟩ := bestRun_spec hbr
    rw [hgl] at hj8
    have hps : ipString b =
        intercalateChar ':' (((bytesToGroups b).take i).map hexStr16) ++
          ':' :: ':' :: intercalateChar ':' (((bytesToGroups b).drop j).map hexStr16) := by
      simp only [ipString, hv4, Bool.false_eq_true, if_false, hbr]
    have hchars : ∀ x ∈ ipString b, isHexLower x = true ∨ x = ':' := by
      rw [hps]
      intro x hx
      rcases List.mem_append.mp hx with h | h
      · rcases mem_intercalateChar_elim h with h | ⟨p, hp, hxp⟩
        · exact Or.inr h
        · obtain ⟨g, hg, rfl⟩ := List.mem_map.mp hp
          exact Or.inl (hexStr16_all_hex (hgb g (List.mem_of_mem_take hg)) x hxp)
      · rcases List.mem_cons.mp h with rfl | h
        · exact Or.inr rfl
        · rcases List.mem_cons.mp h with rfl | h
          · exact Or.inr rfl
          · rcases mem_intercalateChar_elim h with h | ⟨p, hp, hxp⟩
            · exact Or.inr h
            · obtain ⟨g, hg, rfl⟩ := List.mem_map.mp hp
              exact Or.inl (hexStr16_all_hex (hgb g (List.mem_of_mem_drop hg)) x hxp)
    have hcol : ':' ∈ ipString b := by
      rw [hps]
      exact List.mem_append_right _ (List.mem_cons_self _ _)
    have hpc : (ipString b).contains '%' = false :=
      contains_eq_false_iff.mpr (fun hm => by
        rcases hchars _ hm with h | h
        · exact absurd h (by decide)
        · exact absurd h (by decide))
    have hsA : splitOnChar ':' (intercalateChar ':' (((bytesToGroups b).take i).map hexStr16)) =
        if (((bytesToGroups b).take i).map hexStr16).isEmpty then [[]]
        else ((bytesToGroups b).take i).map hexStr16 := by
      cases hA0 : ((bytesToGroups b).take i).map hexStr16 with
      | nil => rfl
      | cons a As =>
        simp only [List.isEmpty_cons, Bool.false_eq_true, if_false]
        refine splitOnChar_intercalateChar (fun p hp hc => ?_) (List.cons_ne_nil a As)
        rw [← hA0] at hp
        obtain ⟨g, hg, rfl⟩ := List.mem_map.mp hp
        exact absurd (hexStr16_all_hex (hgb g (List.mem_of_mem_take hg)) ':' hc) (by decide)
    have hsB : splitOnChar ':' (intercalateChar ':' (((bytesToGroups b).drop j).map hexStr16)) =
        if (((bytesToGroups b).drop j).map hexStr16).isEmpty then [[]]
        else ((bytesToGroups b).drop j).map hexStr16 := by
      cases hB0 : ((bytesToGroups b).drop j).map hexStr16 with
      | nil => rfl
      | cons a As =>
        simp only [List.isEmpty_cons, Bool.false_eq_true, if_false]
        refine splitOnChar_intercalateChar (fun p hp hc => ?_) (List.cons_ne_nil a As)
        rw [← hB0] at hp
        obtain ⟨g, hg, rfl⟩ := List.mem_map.mp hp
        exact absurd (hexStr16_all_hex (hgb g (List.mem_of_mem_drop hg)) ':' hc) (by decide)
    have hsplit : splitOnChar ':' (ipString b) =
        (if (((bytesToGroups b).take i).map hexStr16).isEmpty then [[]]
          else ((bytesToGroups b).take i).map hexStr16) ++
        [] :: (if (((bytesToGroups b).drop j).map hexStr16).isEmpty then [[]]
          else ((bytesToGroups b).drop j).map hexStr16) := by
      rw [hps, splitOnChar_append_cons, splitOnChar_sep_cons, hsA, hsB]
    rw [parseIP_eq_parseV6 hchars hcol,
      parseV6_compressed hpc (hallmap _) (hallmap _) hsplit]
    exact (parseV6_assemble_aux hgl hgb hij hj8 hz).trans (congrArg some hback)

theorem parseIP_ipString {b : List Nat} (hwf : ipWF b) :
    parseIP (ipString b) = some b := by
  cases hv4 : isV4InV6 b with
  | true => exact parseIP_ipString_v4 hwf hv4
  | false => exact parseIP_ipString_v6 hwf hv4

theorem v6Assemble_wf {l r : List Str} {b : List Nat} (h : v6Assemble l r = some b) :
    ipWF b := by
  rw [v6Assemble] at h
  split at h
  · rename_i gl gr hgl hgr
    split at h
    · rename_i hlen
      cases h
      constructor
      · rw [groupsToBytes_length]
        simp only [List.length_append, List.length_replicate]
        omega
      · refine groupsToBytes_bounds (fun g hg => ?_)
        rcases List.mem_append.mp hg with hg | hg
        · rcases List.mem_append.mp hg with hg | hg
          · exact parseGroupSeq_bounds hgl g hg
          · rw [List.eq_of_mem_replicate hg]
            omega
        · exact parseGroupSeq_bounds hgr g hg
    · exact absurd h (by simp)
  · exact absurd h (by simp)

theorem parseV6_wf {s : Str} {b : List Nat} (h : parseV6 s = some b) : ipWF b := by
  rw [parseV6] at h
  split at h
  · exact absurd h (by simp)
  · dsimp only at h
    split at h
    · split at h
      · rename_i gs hgs
        split at h
        · rename_i hlen8
          cases h
          constructor
          · rw [groupsToBytes_length, hlen8]
          · exact groupsToBytes_bounds (parseGroupSeq_bounds hgs)
        · exact absurd h (by simp)
      · exact absurd h (by simp)
    · split at h
      · split at h
        · exact absurd h (by simp)
        · split at h
          · exact v6Assemble_wf h
          · split at h
            · exact v6Assemble_wf h
            · exact absurd h (by simp)
        · exact absurd h (by simp)
      · split at h
        · exact absurd h (by simp)
        · exact v6Assemble_wf h
        · split at h
          · exact v6Assemble_wf h
          · exact absurd h (by simp)
    · exact absurd h (by simp)

theorem parseIP_wf {s : Str} {b : List Nat} (h : parseIP s = some b) : ipWF b := by
  rw [parseIP] at h
  split at h
  · split at h
    · cases hq : parseV4Quad s with
      | none => rw [hq] at h; exact absurd h (by simp)
      | some quad =>
        obtain ⟨x, y, z, w⟩ := quad
        rw [hq] at h
        obtain rfl : v4Mapped x y z w = b := by simpa using h
        obtain ⟨hx, hy, hz, hw⟩ := parseV4Quad_le hq
        constructor
        · rfl
        · intro t ht
          simp only [v4Mapped, List.mem_cons, List.not_mem_nil, or_false] at ht
          rcases ht with rfl | rfl | rfl | rfl | rfl | rfl | rfl | rfl | rfl | rfl | rfl |
            rfl | rfl | rfl | rfl | rfl <;> omega
    · exact parseV6_wf h
  · exact absurd h (by simp)

theorem decStr_getLast (n : Nat) : (decStr n).getLast? = some (decDigit (n % 10)) := by
  rw [decStr]
  by_cases h10 : n < 10
  · rw [if_pos h10, Nat.mod_eq_of_lt h10]
    rfl
  · rw [if_neg h10]
    by_cases h100 : n < 100
    · rw [if_pos h100]
      rfl
    · rw [if_neg h100]
      rfl

theorem append_cons_ne_nil (u : Str) (d : Char) (v : Str) : u ++ d :: v ≠ [] := by
  intro h
  have h2 := congrArg List.length h
  rw [List.length_append, List.length_cons, List.length_nil] at h2
  omega

theorem getLast?_append_cons (l : Str) (c : Char) (m : Str) (hm : m ≠ []) :
    (l ++ c :: m).getLast? = m.getLast? := by
  rw [← List.head?_reverse, ← List.head?_reverse, List.reverse_append, List.reverse_cons]
  cases hr : m.reverse with
  | nil => exact absurd (by simpa using hr) hm
  | cons a t => rfl

theorem ipString_v6_chars {b : List Nat} (hwf : ipWF b) (hv4 : isV4InV6 b = false) :
    ∀ x ∈ ipString b, isHexLower x = true ∨ x = ':' := by
  obtain ⟨hlen, hbound⟩ := hwf
  have hgb : ∀ g ∈ bytesToGroups b, g < 65536 := bytesToGroups_bounds b hbound
  cases hbr : bestRun (bytesToGroups b) with
  | none =>
    have hps : ipString b = intercalateChar ':' ((bytesToGroups b).map hexStr16) := by
      simp only [ipString, hv4, Bool.false_eq_true, if_false, hbr]
    rw [hps]
    intro x hx
    rcases mem_intercalateChar_elim hx with h | ⟨p, hp, hxp⟩
    · exact Or.inr h
    · obtain ⟨g, hg, rfl⟩ := List.mem_map.mp hp
      exact Or.inl (hexStr16_all_hex (hgb g hg) x hxp)
  | some ij =>
    obtain ⟨i, j⟩ := ij
    have hps : ipString b =
        intercalateChar ':' (((bytesToGroups b).take i).map hexStr16) ++
          ':' :: ':' :: intercalateChar ':' (((bytesToGroups b).drop j).map hexStr16) := by
      simp only [ipString, hv4, Bool.false_eq_true, if_false, hbr]
    rw [hps]
    intro x hx
    rcases List.mem_append.mp hx with h | h
    · rcases mem_intercalateChar_elim h with h | ⟨p, hp, hxp⟩
      · exact Or.inr h
      · obtain ⟨g, hg, rfl⟩ := List.mem_map.mp hp
        exact Or.inl (hexStr16_all_hex (hgb g (List.mem_of_mem_take hg)) x hxp)
    · rcases List.mem_cons.mp h with rfl | h
      · exact Or.inr rfl
      · rcases List.mem_cons.mp h with rfl | h
        · exact Or.inr rfl
        · rcases mem_intercalateChar_elim h with h | ⟨p, hp, hxp⟩
          · exact Or.inr h
          · obtain ⟨g, hg, rfl⟩ := List.mem_map.mp hp
            exact Or.inl (hexStr16_all_hex (hgb g (List.mem_of_mem_drop hg)) x hxp)

theorem ipString_v6_colon {b : List Nat} (hwf : ipWF b) (hv4 : isV4InV6 b = false) :
    ':' ∈ ipString b := by
  obtain ⟨hlen, hbound⟩ := hwf
  have hgl : (bytesToGroups b).length = 8 := by rw [bytesToGroups_length, hlen]
  cases hbr : bestRun (bytesToGroups b) with
  | none =>
    have hps : ipString b = intercalateChar ':' ((bytesToGroups b).map hexStr16) := by
      simp only [ipString, hv4, Bool.false_eq_true, if_false, hbr]
    rw [hps]
    exact sep_mem_intercalateChar (by rw [List.length_map, hgl]; omega)
  | some ij =>
    obtain ⟨i, j⟩ := ij
    have hps : ipString b =
        intercalateChar ':' (((bytesToGroups b).take i).map hexStr16) ++
          ':' :: ':' :: intercalateChar ':' (((bytesToGroups b).drop j).map hexStr16) := by
      simp only [ipString, hv4, Bool.false_eq_true, if_false, hbr]
    rw [hps]
    exact List.mem_append_right _ (List.mem_cons_self _ _)

theorem ipString_props {b : List Nat} (hwf : ipWF b) :
    ipString b ≠ [] ∧ (∀ c ∈ ipString b, isSpaceGo c = false) ∧
      endsWith (ipString b) (str ".") = false := by
  cases hv4 : isV4InV6 b with
  | true =>
    obtain ⟨hlen, hbound⟩ := hwf
    obtain ⟨x, y, z, w, hdrop⟩ := list_len4 (l := b.drop 12)
      (by rw [List.length_drop, hlen])
    have hps : ipString b = intercalateChar '.' ((b.drop 12).map decStr) := by
      rw [ipString, if_pos hv4]
    have hbnd : ∀ v ∈ b.drop 12, v < 256 := fun v hv => hbound v (List.mem_of_mem_drop hv)
    have hchars := v4_print_chars hbnd
    refine ⟨?_, ?_, ?_⟩
    · rw [hps]
      exact List.ne_nil_of_mem (sep_mem_intercalateChar
        (by rw [List.length_map, List.length_drop, hlen]; omega))
    · rw [hps]
      intro c hc
      rcases hchars c hc with h | rfl
      · exact (isDigit_ne h).2.2.2.2
      · decide
    · rw [hps]
      cases hE : endsWith (intercalateChar '.' ((b.drop 12).map decStr)) (str ".") with
      | false => rfl
      | true =>
        have hlast := endsWith_singleton_iff.mp hE
        rw [hdrop] at hlast
        have e1 : intercalateChar '.' ([x, y, z, w].map decStr) =
            decStr x ++ '.' :: (decStr y ++ '.' :: (decStr z ++ '.' :: decStr w)) := rfl
        rw [e1, getLast?_append_cons _ _ _ (append_cons_ne_nil _ _ _),
          getLast?_append_cons _ _ _ (append_cons_ne_nil _ _ _),
          getLast?_append_cons _ _ _ (decStr_ne_nil w), decStr_getLast] at hlast
        have h2 := Option.some.inj hlast
        exact absurd h2 (isDigit_ne (decDigit_isDigit (Nat.mod_lt _ (by omega)))).2.1
  | false =>
    have hchars := ipString_v6_chars hwf hv4
    have hcol := ipString_v6_colon hwf hv4
    refine ⟨List.ne_nil_of_mem hcol, ?_, ?_⟩
    · intro c hc
      rcases hchars c hc with h | rfl
      · exact (isHexLower_ne h).2.2.2.2
      · decide
    · cases hE : endsWith (ipString b) (str ".") with
      | false => rfl
      | true =>
        obtain ⟨u, hu⟩ := (endsWith_iff _ _).mp hE
        have hdotmem : '.' ∈ ipString b := by
          rw [← hu]
          exact List.mem_append_right u (List.mem_cons_self _ _)
        rcases hchars '.' hdotmem with h | h
        · exact absurd h (by decide)
        · exact absurd h (by decide)

theorem normalizeHost_ipString {ip : List Nat} (hwf : ipWF ip) :
    normalizeHost (ipString ip) = ipString ip := by
  obtain ⟨hne, hnospace, hnodot⟩ := ipString_props hwf
  have htrim : trimSpace (ipString ip) = ipString ip := trimSpace_of_no_space hnospace
  have hisE : (ipString ip).isEmpty = false := by
    cases hq : ipString ip with
    | nil => exact absurd hq hne
    | cons a t => rfl
  simp only [normalizeHost, htrim, hisE, Bool.false_eq_true, if_false,
    trimTrailing_of_not_endsWith hnodot, parseIP_ipString hwf]

theorem beq_lowerChar_fixed {c : Char} (d : Char) (h1 : ¬(97 ≤ d.toNat ∧ d.toNat ≤ 122))
    (h2 : ¬(65 ≤ d.toNat ∧ d.toNat ≤ 90)) : (lowerChar c == d) = (c == d) := by
  cases hb : c == d with
  | true =>
    rw [eq_of_beq hb, (lowerChar_eq_iff_of_fixed h1 h2).mpr rfl]
    exact beq_self_eq_true d
  | false =>
    have hne := beq_eq_false_iff_ne.mp hb
    exact beq_eq_false_iff_ne.mpr (fun he => hne ((lowerChar_eq_iff_of_fixed h1 h2).mp he))

theorem sep_lowerChar (x : Char) :
    (lowerChar x == '.' || lowerChar x == ':') = (x == '.' || x == ':') := by
  rw [beq_lowerChar_fixed '.' (by decide) (by decide),
    beq_lowerChar_fixed ':' (by decide) (by decide)]

theorem find?_sep_map_lower : ∀ s : Str,
    (s.map lowerChar).find? (fun c => c == '.' || c == ':') =
      s.find? (fun c => c == '.' || c == ':')
  | [] => rfl
  | x :: xs => by
    simp only [List.map_cons, List.find?_cons]
    rw [sep_lowerChar x]
    cases hx : (x == '.' || x == ':') with
    | false => exact find?_sep_map_lower xs
    | true =>
      have hfix : lowerChar x = x := by
        rcases (by simpa using hx : x = '.' ∨ x = ':') with rfl | rfl <;> decide
      rw [hfix]

theorem splitOnChar_dot_map_lower : ∀ s : Str,
    splitOnChar '.' (s.map lowerChar) = (splitOnChar '.' s).map (List.map lowerChar)
  | [] => rfl
  | x :: xs => by
    simp only [List.map_cons]
    rw [splitOnChar, splitOnChar, beq_lowerChar_fixed '.' (by decide) (by decide)]
    cases hx : x == '.' with
    | true =>
      show [] :: splitOnChar '.' (xs.map lowerChar) =
        [] :: (splitOnChar '.' xs).map (List.map lowerChar)
      exact congrArg _ (splitOnChar_dot_map_lower xs)
    | false =>
      show (match splitOnChar '.' (xs.map lowerChar) with
          | [] => [[lowerChar x]]
          | h :: t => (lowerChar x :: h) :: t) =
        ((match splitOnChar '.' xs with
          | [] => [[x]]
          | h :: t => (x :: h) :: t).map (List.map lowerChar))
      rw [splitOnChar_dot_map_lower xs]
      cases hsp : splitOnChar '.' xs with
      | nil => rfl
      | cons h t => rfl

theorem all_ext {p q : Char → Bool} (h : ∀ c, p c = q c) : ∀ l : Str, l.all p = l.all q
  | [] => rfl
  | x :: xs => by rw [List.all_cons, List.all_cons, h x, all_ext h xs]

theorem map_lower_of_all_digits {f : Str} (h : f.all Char.isDigit = true) :
    f.map lowerChar = f := by
  refine (List.map_congr_left (fun c hc => ?_)).trans (List.map_id f)
  exact lowerChar_of_digit (List.all_eq_true.mp h c hc)

theorem parseDecOctet_map_lower (f : Str) :
    parseDecOctet (f.map lowerChar) = parseDecOctet f := by
  cases hall : f.all Char.isDigit with
  | true => rw [map_lower_of_all_digits hall]
  | false =>
    cases f with
    | nil => rfl
    | cons a l =>
      have hall2 : (lowerChar a :: l.map lowerChar).all Char.isDigit = false := by
        rw [show lowerChar a :: l.map lowerChar = (a :: l).map lowerChar from rfl,
          List.all_map,
          all_ext (p := Char.isDigit ∘ lowerChar) (q := Char.isDigit)
            (fun c => isDigit_lowerChar c)]
        exact hall
      simp only [parseDecOctet, List.map_cons, List.isEmpty_cons, Bool.false_eq_true,
        if_false, hall2, hall, Bool.not_false, eq_self_iff_true, if_true]

theorem parseV4Quad_map_lower (s : Str) :
    parseV4Quad (s.map lowerChar) = parseV4Quad s := by
  rw [parseV4Quad, parseV4Quad, splitOnChar_dot_map_lower]
  cases hsp : splitOnChar '.' s with
  | nil => rfl
  | cons a t =>
    cases t with
    | nil => rfl
    | cons b t2 =>
      cases t2 with
      | nil => rfl
      | cons c2 t3 =>
        cases t3 with
        | nil => rfl
        | cons d t4 =>
          cases t4 with
          | cons e t5 => rfl
          | nil =>
            show (match parseDecOctet (a.map lowerChar), parseDecOctet (b.map lowerChar),
                parseDecOctet (c2.map lowerChar), parseDecOctet (d.map lowerChar) with
              | some x, some y, some z, some w => some (x, y, z, w)
              | _, _, _, _ => none) =
              (match parseDecOctet a, parseDecOctet b, parseDecOctet c2, parseDecOctet d with
              | some x, some y, some z, some w => some (x, y, z, w)
              | _, _, _, _ => none)
            rw [parseDecOctet_map_lower, parseDecOctet_map_lower, parseDecOctet_map_lower,
              parseDecOctet_map_lower]

theorem parseIP_map_lower (s : Str) : parseIP (s.map lowerChar) = parseIP s := by
  rw [parseIP, parseIP, find?_sep_map_lower]
  cases hf : s.find? (fun c => c == '.' || c == ':') with
  | none => rfl
  | some c =>
    show (if c = '.' then
        (parseV4Quad (s.map lowerChar)).map (fun (a, b, c, d) => v4Mapped a b c d)
      else parseV6 ((s.map lowerChar).map lowerChar)) =
      (if c = '.' then (parseV4Quad s).map (fun (a, b, c, d) => v4Mapped a b c d)
      else parseV6 (s.map lowerChar))
    by_cases hc : c = '.'
    · rw [if_pos hc, if_pos hc, parseV4Quad_map_lower]
    · rw [if_neg hc, if_neg hc, List.map_map,
        show lowerChar ∘ lowerChar = lowerChar from funext lowerChar_lowerChar]

theorem idnaToASCII_ascii {s : Str} (hascii : ∀ c ∈ s, c.toNat < 128) :
    idnaToASCII s = some s := by
  rw [idnaToASCII]
  congr 1
  have hmap : (splitOnChar '.' s).map
      (fun label => if label.all (fun c => c.toNat < 128) then label
        else str "xn--" ++ punyEncodeLabel label) = splitOnChar '.' s := by
    refine (List.map_congr_left (fun label hl => ?_)).trans (List.map_id _)
    have hcond : label.all (fun c => decide (c.toNat < 128)) = true := by
      rw [List.all_eq_true]
      intro c hc
      rw [decide_eq_true_eq]
      exact hascii c (mem_of_mem_splitOnChar hl hc)
    rw [hcond]
    exact if_pos rfl
  rw [hmap, intercalateChar_splitOnChar]

theorem mem_of_mem_trimTrailing {s suf : Str} {c : Char} (hc : c ∈ trimTrailing s suf) :
    c ∈ s := by
  rw [trimTrailing] at hc
  split at hc
  · exact List.mem_of_mem_take hc
  · exact hc

theorem trimTrailing_dot_not_endsWith {s : Str} (hdots : endsWith s (str "..") = false) :
    endsWith (trimTrailing s (str ".")) (str ".") = false := by
  cases hE : endsWith s (str ".") with
  | false =>
    rw [trimTrailing_of_not_endsWith hE]
    exact hE
  | true =>
    obtain ⟨u, hu⟩ := (endsWith_iff _ _).mp hE
    have hlen : s.length - (str ".").length = u.length := by
      rw [← hu, List.length_append]
      simp
    rw [trimTrailing, if_pos hE, hlen, ← hu, List.take_left]
    cases hu2 : endsWith u (str ".") with
    | false => rfl
    | true =>
      obtain ⟨v, hv⟩ := (endsWith_iff _ _).mp hu2
      have hss : endsWith s (str "..") = true := by
        rw [endsWith_iff]
        exact ⟨v, by rw [← hu, ← hv, List.append_assoc]; rfl⟩
      rw [hss] at hdots
      exact absurd hdots (by decide)

/-! ### Claim theorems -/

/-- C9: every `ScopeEntry` produced by `parseScopeLine` satisfies the
kind/payload exclusivity invariant: a non-empty `base` occurs only on
`Exact` and `LeadingWildcard` entries (which carry no pattern labels), and
pattern labels occur only on `PatternWildcard` entries (whose `base` is
empty). -/
theorem claim_C9_entry_kind_payload_invariant (line : Str) :
    ((parseScopeLine line).base ≠ [] →
      ((parseScopeLine line).kind = scopeExact ∨
        (parseScopeLine line).kind = scopeLeadingWildcard) ∧
      (parseScopeLine line).patternLabels = []) ∧
    ((parseScopeLine line).patternLabels ≠ [] →
      (parseScopeLine line).kind = scopePatternWildcard ∧
      (parseScopeLine line).base = []) := by
  by_cases h1 : startsWith (trimTrailing (trimSpace line) (str ".")) (str "*.")
  · refine ⟨fun _ => ⟨Or.inr ?_, ?_⟩,
      fun h => absurd (?_ : (parseScopeLine line).patternLabels = []) h⟩ <;>
      simp only [parseScopeLine, h1, if_true]
  · by_cases h2 : (trimTrailing (trimSpace line) (str ".")).contains '*'
    · refine ⟨fun h => absurd (?_ : (parseScopeLine line).base = []) h, fun _ => ⟨?_, ?_⟩⟩ <;>
        simp only [parseScopeLine, h1, h2, Bool.false_eq_true, if_true, if_false]
    · refine ⟨fun _ => ⟨Or.inl ?_, ?_⟩,
        fun h => absurd (?_ : (parseScopeLine line).patternLabels = []) h⟩ <;>
        simp only [parseScopeLine, h1, h2, Bool.false_eq_true, if_false]

theorem claim_C9_witness :
    (parseScopeLine (str "staging.*.domain.com")).kind = scopePatternWildcard ∧
    (parseScopeLine (str "staging.*.domain.com")).base = [] :=
  (claim_C9_entry_kind_payload_invariant (str "staging.*.domain.com")).2 (by decide)

/-- C2: an entry-level port constraint requires exact string equality with
the candidate's port (an absent candidate port fails it); a port mismatch
only skips that entry; and the verdict over a scope list is existential:
with both `example.com` and `example.com:80` in scope, host `example.com`
with no port matches. -/
theorem claim_C2_port_constraint_and_existential_scope :
    (∀ host port scope, parseIP host = none → host ≠ [] →
      (matchHost host port scope = true ↔
        ∃ e ∈ scope, entryHit host e = true ∧ (e.port = [] ∨ e.port = port))) ∧
    matchHost (str "domain.com") (str "80") (loadScopeLines [str "domain.com:80"]) = true ∧
    matchHost (str "domain.com") (str "8080") (loadScopeLines [str "domain.com:80"]) = false ∧
    matchHost (str "domain.com") [] (loadScopeLines [str "domain.com:80"]) = false ∧
    matchHost (str "example.com") []
      (loadScopeLines [str "example.com", str "example.com:80"]) = true ∧
    matchHost (str "example.com") []
      (loadScopeLines [str "example.com:80", str "example.com"]) = true := by
  refine ⟨?_, by decide, by decide, by decide, by decide, by decide⟩
  intro host port scope hip hne
  rw [matchHost_domain port scope hip]
  have hh : host.isEmpty = false := by simpa [List.isEmpty_iff] using hne
  simp only [hh, Bool.not_false, Bool.true_and, List.any_eq_true, entrySat,
    Bool.and_eq_true, Bool.or_eq_true, List.isEmpty_iff, beq_iff_eq]

theorem claim_C2_witness :
    matchHost (str "example.com") []
      (loadScopeLines [str "example.com:80", str "example.com"]) = true :=
  ((claim_C2_port_constraint_and_existential_scope).1 (str "example.com") []
      (loadScopeLines [str "example.com:80", str "example.com"])
      (by decide) (by decide)).2
    ⟨parseScopeLine (str "example.com"), by decide, by decide, Or.inl (by decide)⟩

/-- C5: a candidate host that parses as an IP literal is matched only by
`Exact` entries — wildcard entries never match an IP host — and an `Exact`
entry hits when its base is equal as a parsed IP or case-insensitively
equal as a string, subject to its exact port constraint. -/
theorem claim_C5_ip_hosts_match_only_exact_entries :
    (∀ host port scope ip, parseIP host = some ip →
      (matchHost host port scope = true ↔
        ∃ e ∈ scope, e.kind = scopeExact ∧
          (parseIP e.base = some ip ∨ equalFold e.base host = true) ∧
          (e.port = [] ∨ e.port = port))) ∧
    matchHost (str "127.0.0.1") [] (loadScopeLines [str "127.0.0.1"]) = true ∧
    matchHost (str "127.0.0.1") [] (loadScopeLines [str "*.0.1"]) = false ∧
    matchHost (str "127.0.0.1") [] (loadScopeLines [str "127.*.1"]) = false ∧
    matchHost (str "0:0:0:0:0:0:0:1") [] (loadScopeLines [str "[::1]"]) = true ∧
    matchHost (str "127.0.0.1") (str "80") (loadScopeLines [str "127.0.0.1:8080"]) = false := by
  refine ⟨?_, by decide, by decide, by decide, by decide, by decide⟩
  intro host port scope ip hip
  rw [matchHost_ip port scope hip]
  simp only [List.any_eq_true, entrySatIP, Bool.and_eq_true, Bool.or_eq_true,
    List.isEmpty_iff, beq_iff_eq, and_assoc]

theorem claim_C5_witness :
    matchHost (str "0:0:0:0:0:0:0:1") [] (loadScopeLines [str "[::1]"]) = true :=
  ((claim_C5_ip_hosts_match_only_exact_entries).1 (str "0:0:0:0:0:0:0:1") []
      (loadScopeLines [str "[::1]"]) (parseIP (str "::1")).get! (by decide)).2
    ⟨parseScopeLine (str "[::1]"), by decide, by decide, Or.inl (by decide),
      Or.inl (by decide)⟩

/-- C3: a `PatternWildcard` entry matches a domain host only when, after
stripping one trailing dot and splitting on `.`, the label counts agree;
position by position a literal pattern label must case-insensitively equal
the host label and `*` matches exactly one non-empty host label — so
`staging.*.domain.com` matches `staging.eu.domain.com` but not
`staging.domain.com`. -/
theorem claim_C3_pattern_wildcard_per_label_matching :
    (∀ host pattern,
      matchPatternWildcard host pattern = true ↔
        List.Forall₂ patternLabelOK (splitOnChar '.' (trimTrailing host (str "."))) pattern) ∧
    (∀ host pattern, matchPatternWildcard host pattern = true →
      (splitOnChar '.' (trimTrailing host (str "."))).length = pattern.length) ∧
    matchHost (str "staging.eu.domain.com") []
      (loadScopeLines [str "staging.*.domain.com"]) = true ∧
    matchHost (str "staging.domain.com") []
      (loadScopeLines [str "staging.*.domain.com"]) = false ∧
    matchPatternWildcard (str "staging.eu.example.com")
      (parseScopeLine (str "staging.*.domain.com")).patternLabels = false ∧
    matchPatternWildcard (str "STAGING.eu.DOMAIN.com")
      (parseScopeLine (str "staging.*.domain.com")).patternLabels = true ∧
    matchPatternWildcard (str "staging..domain.com")
      (parseScopeLine (str "staging.*.domain.com")).patternLabels = false := by
  have hiff : ∀ host pattern,
      matchPatternWildcard host pattern = true ↔
        List.Forall₂ patternLabelOK (splitOnChar '.' (trimTrailing host (str "."))) pattern := by
    intro host pattern
    by_cases hlen : (splitOnChar '.' (trimTrailing host (str "."))).length = pattern.length
    · have : matchPatternWildcard host pattern =
          patternLabelsMatch (splitOnChar '.' (trimTrailing host (str "."))) pattern := by
        simp [matchPatternWildcard, hlen]
      rw [this]
      exact patternLabelsMatch_iff _ _
    · have : matchPatternWildcard host pattern = false := by
        simp [matchPatternWildcard, hlen]
      rw [this]
      simp only [Bool.false_eq_true, false_iff]
      exact fun h => hlen h.length_eq
  exact ⟨hiff, fun host pattern h => ((hiff host pattern).mp h).length_eq,
    by decide, by decide, by decide, by decide, by decide⟩

theorem claim_C3_witness :
    (splitOnChar '.' (trimTrailing (str "staging.eu.domain.com") (str "."))).length =
      (parseScopeLine (str "staging.*.domain.com")).patternLabels.length :=
  (claim_C3_pattern_wildcard_per_label_matching).2.1 (str "staging.eu.domain.com")
    (parseScopeLine (str "staging.*.domain.com")).patternLabels (by decide)

/-- C4: a `LeadingWildcard` entry with base `b` matches exactly the hosts
equal to `b` or ending in `"." ++ b`; `test.com`, `api.test.com` and
`deep.nested.sub.test.com` match `*.test.com`, while `nottest.com`, which
merely contains `test.com` as a substring, does not. -/
theorem claim_C4_leading_wildcard_base_or_dot_suffix :
    (∀ host base, toLowerGo host = host → toLowerGo base = base →
      endsWith host (str ".") = false → endsWith base (str ".") = false →
      (matchLeadingWildcard host base = true ↔ host = base ∨ ('.' :: base) <:+ host)) ∧
    matchHost (str "api.test.com") [] (loadScopeLines [str "*.test.com"]) = true ∧
    matchHost (str "test.com") [] (loadScopeLines [str "*.test.com"]) = true ∧
    matchHost (str "deep.nested.sub.test.com") [] (loadScopeLines [str "*.test.com"]) = true ∧
    matchHost (str "nottest.com") [] (loadScopeLines [str "*.test.com"]) = false := by
  refine ⟨?_, by decide, by decide, by decide, by decide⟩
  intro host base hlh hlb heh heb
  have he : equalHost host base = (host == base) := by
    rw [equalHost, trimTrailing_of_not_endsWith heh, trimTrailing_of_not_endsWith heb,
      equalFold, hlh, hlb]
  by_cases h1 : host = base
  · subst h1
    simp [matchLeadingWildcard, he]
  · have hbe : (host == base) = false := by simpa using h1
    simp only [matchLeadingWildcard, he, hbe, Bool.false_eq_true, if_false]
    cases h2 : endsWith host ('.' :: base)
    · simp only [Bool.false_eq_true, if_false, false_iff]
      rintro (h | hs)
      · exact h1 h
      · rw [← endsWith_iff] at hs
        rw [hs] at h2
        exact absurd h2 (by simp)
    · simp only [if_true, true_iff]
      exact Or.inr ((endsWith_iff _ _).mp h2)

theorem claim_C4_witness :
    str "api.test.com" = str "test.com" ∨ ('.' :: str "test.com") <:+ str "api.test.com" :=
  ((claim_C4_leading_wildcard_base_or_dot_suffix).1 (str "api.test.com") (str "test.com")
    (by decide) (by decide) (by decide) (by decide)).mp (by decide)

/-- C6 (counterexample): standard host:port splitting fails on the bare
IPv6 literal `::1`, the segment `1` after its last colon is not a valid IP
address, and so `stripPort` *does* split it — into host `:` and port `1` —
rather than leaving it whole as the claim's example asserts. -/
theorem claim_C6_counterexample_bare_ipv6_is_split :
    splitHostPort (str "::1") = none ∧
    parseIP (str "1") = none ∧
    stripPort (str "::1") = (str ":", str "1") ∧
    stripPort (str "::1") ≠ (str "::1", []) := by
  refine ⟨by decide, by decide, by decide, by decide⟩

/-- C6 (amended): when standard host:port splitting fails on an unbracketed
string, `stripPort` falls back to splitting at the last colon exactly when
the segment after that colon is not itself a valid IP address.  The guard
therefore protects literals whose final segment parses as an IP — such as
an embedded IPv4 tail `::ffff:1.2.3.4` — while a bare IPv6 literal like
`::1` is still split. -/
theorem claim_C6_last_colon_fallback_ip_guard :
    (∀ h, trimSpace h = h → h ≠ [] → startsWith h (str "[") = false →
      splitHostPort h = none →
      stripPort h =
        (if (splitOnChar ':' h).length > 1 ∧
            parseIP ((splitOnChar ':' h).getLastD []) = none then
          (intercalateChar ':' (splitOnChar ':' h).dropLast, (splitOnChar ':' h).getLastD [])
        else (h, []))) ∧
    stripPort (str "::ffff:1.2.3.4") = (str "::ffff:1.2.3.4", []) ∧
    stripPort (str "::1") = (str ":", str "1") := by
  refine ⟨?_, by decide, by decide⟩
  intro h ht hne hsw hsp
  rw [stripPort, ht, if_neg (by simpa [List.isEmpty_iff] using hne),
    if_neg (by simp [hsw]), stripPortFallback, hsp]

theorem claim_C6_witness :
    stripPort (str "2001:db8::1") =
      (if (splitOnChar ':' (str "2001:db8::1")).length > 1 ∧
          parseIP ((splitOnChar ':' (str "2001:db8::1")).getLastD []) = none then
        (intercalateChar ':' (splitOnChar ':' (str "2001:db8::1")).dropLast,
          (splitOnChar ':' (str "2001:db8::1")).getLastD [])
      else (str "2001:db8::1", [])) :=
  (claim_C6_last_colon_fallback_ip_guard).1 (str "2001:db8::1")
    (by decide) (by decide) (by decide) (by decide)

theorem startsWith_nil (s : Str) : startsWith s [] = true := by
  cases s <;> rfl

theorem take_append_get_cons_drop {l : Str} {i : Nat} {c : Char}
    (h : l.get? i = some c) : l = l.take i ++ c :: l.drop (i + 1) := by
  induction l generalizing i with
  | nil => simp at h
  | cons x t ih =>
    cases i with
    | zero =>
      obtain rfl : x = c := by simpa using h
      simp
    | succ j =>
      have := ih (i := j) (by simpa using h)
      calc x :: t = x :: (t.take j ++ c :: t.drop (j + 1)) := by rw [← this]
        _ = (x :: t).take (j + 1) ++ c :: (x :: t).drop (j + 2) := by simp

theorem intercalate_dropLast_concat {c : Char} {parts : List Str}
    (h : 1 < parts.length) :
    intercalateChar c parts =
      intercalateChar c parts.dropLast ++ c :: parts.getLastD [] := by
  induction parts with
  | nil => simp at h
  | cons p rest ih =>
    cases rest with
    | nil => simp at h
    | cons q rest2 =>
      have hrw : intercalateChar c (p :: q :: rest2) =
          p ++ c :: intercalateChar c (q :: rest2) := rfl
      cases rest2 with
      | nil => simp [hrw, intercalateChar]
      | cons r rest3 =>
        rw [hrw, ih (by simp)]
        have hd : (p :: q :: r :: rest3).dropLast = p :: (q :: r :: rest3).dropLast := by
          simp
        have hrw2 : intercalateChar c (p :: (q :: r :: rest3).dropLast) =
            p ++ c :: intercalateChar c ((q :: r :: rest3).dropLast) := by
          cases hlast : (q :: r :: rest3).dropLast with
          | nil => simp at hlast
          | cons a b => exact rfl
        rw [hd, hrw2]
        simp

theorem startsWith_false_of_concat {f h0 r : Str} {c : Char}
    (hsw : startsWith f [c] = false) (hf : f = h0 ++ r) :
    startsWith h0 [c] = false := by
  cases h0 with
  | nil => rfl
  | cons x t =>
    subst hf
    simp only [startsWith, startsWith_nil, Bool.and_true] at hsw ⊢
    exact hsw

theorem splitHostPort_eq_some {f h0 p0 : Str}
    (hsw : startsWith f (str "[") = false)
    (h : splitHostPort f = some (h0, p0)) :
    f = h0 ++ ':' :: p0 ∧ startsWith h0 (str "[") = false := by
  cases hli : lastIndexChar f ':' with
  | none => rw [splitHostPort, hli] at h; exact absurd h (by simp)
  | some i =>
    simp only [splitHostPort, hli, hsw, Bool.false_eq_true, if_false] at h
    by_cases h1 : (f.take i).contains ':' = true
    · rw [if_pos h1] at h; exact absurd h (by simp)
    · rw [if_neg h1] at h
      by_cases h2 : f.contains '[' = true
      · rw [if_pos h2] at h; exact absurd h (by simp)
      · rw [if_neg h2] at h
        by_cases h3 : f.contains ']' = true
        · rw [if_pos h3] at h; exact absurd h (by simp)
        · rw [if_neg h3] at h
          obtain ⟨rfl, rfl⟩ : f.take i = h0 ∧ f.drop (i + 1) = p0 := by
            constructor <;> simp_all
          obtain ⟨-, hget⟩ := lastIndexChar_get hli
          have hcat := take_append_get_cons_drop hget
          exact ⟨hcat, startsWith_false_of_concat hsw hcat⟩

theorem stripPortFallback_concat {f : Str}
    (hsw : startsWith f (str "[") = false) :
    (f = (stripPortFallback f).1 ++ ':' :: (stripPortFallback f).2 ∨
      stripPortFallback f = (f, [])) ∧
    startsWith (stripPortFallback f).1 (str "[") = false := by
  rw [stripPortFallback]
  cases hsp : splitHostPort f with
  | some hp =>
    obtain ⟨a, b⟩ := hp
    obtain ⟨hcat, hsw0⟩ := splitHostPort_eq_some hsw hsp
    exact ⟨Or.inl hcat, hsw0⟩
  | none =>
    by_cases hif : (splitOnChar ':' f).length > 1 ∧
        parseIP ((splitOnChar ':' f).getLastD []) = none
    · rw [if_pos hif]
      have hcat : f = intercalateChar ':' (splitOnChar ':' f).dropLast ++
          ':' :: (splitOnChar ':' f).getLastD [] := by
        conv_lhs => rw [← intercalateChar_splitOnChar ':' f]
        exact intercalate_dropLast_concat hif.1
      exact ⟨Or.inl hcat, startsWith_false_of_concat hsw hcat⟩
    · rw [if_neg hif]
      exact ⟨Or.inr rfl, hsw⟩

theorem postBracket_id {hp : Str × Str} (h : startsWith hp.1 (str "[") = false) :
    postBracket hp = hp := by
  rw [postBracket, if_neg (by simp [h])]

/-- Reaching the bare `host[:port]` branch of `extractHostFromLine`: a
non-empty whitespace-free field with no `#` lead, no `://`, not a
bracket form, and no `/`. -/
theorem extractHost_bare {f : Str} (hne : f ≠ [])
    (hns : ∀ x ∈ f, isSpaceGo x = false)
    (hsh : startsWith f (str "#") = false)
    (hsc : containsStr f (str "://") = false)
    (hbr : (startsWith f (str "[") && containsStr f (str "]")) = false)
    (hsl : containsStr f (str "/") = false) :
    extractHostFromLine f = some (postBracket (stripPort f)) := by
  have hie : f.isEmpty = false := by simpa [List.isEmpty_iff] using hne
  simp only [extractHostFromLine, trimSpace_of_no_space hns, hie, hsh,
    Bool.or_self, Bool.false_eq_true, if_false, fieldsGo_of_no_space hns hne,
    hsc, hbr, hsl]

/-- C10 (counterexample): for the input line `http://a.com#x` the first
field's leading character is not `#` and a `#` occurs later, yet extraction
returns host `a.com`: URL parsing treats `#x` as a fragment and strips it,
so the `#` does not remain part of the extracted host. -/
theorem claim_C10_counterexample_url_fragment_stripped :
    startsWith (str "http://a.com#x") (str "#") = false ∧
    containsStr (str "http://a.com#x") (str "#") = true ∧
    extractHostFromLine (str "http://a.com#x") = some (str "a.com", []) ∧
    (str "a.com").contains '#' = false := by
  refine ⟨by decide, by decide, by decide, by decide⟩

/-- C10 (amended): inline `#` comments are stripped only from scope-file
lines, which are truncated at the first `#`; an input field is not
truncated.  In the bare `host[:port]` branch (no `://`, no `/`, not
bracketed) extraction succeeds and every `#` of the field survives into
the extracted host or port; a URL-shaped field, by contrast, loses the
`#`-fragment to URL parsing. -/
theorem claim_C10_hash_kept_in_bare_input_fields :
    (∀ f : Str, f ≠ [] → (∀ x ∈ f, isSpaceGo x = false) →
      startsWith f (str "#") = false →
      containsStr f (str "://") = false →
      startsWith f (str "[") = false →
      containsStr f (str "/") = false →
      '#' ∈ f →
      ∃ h p, extractHostFromLine f = some (h, p) ∧ '#' ∈ h ++ p) ∧
    extractHostFromLine (str "a#b") = some (str "a#b", []) ∧
    extractHostFromLine (str "a#b:80") = some (str "a#b", str "80") ∧
    loadScopeLines [str "a#b"] = [parseScopeLine (str "a")] := by
  refine ⟨?_, by decide, by decide, by decide⟩
  intro f hne hns hsh hsc hsw hsl hmem
  have hbr : (startsWith f (str "[") && containsStr f (str "]")) = false := by
    simp [hsw]
  rw [extractHost_bare hne hns hsh hsc hbr hsl]
  have hie : f.isEmpty = false := by simpa [List.isEmpty_iff] using hne
  have hstrip : stripPort f = stripPortFallback f := by
    simp only [stripPort, trimSpace_of_no_space hns, hie, Bool.false_eq_true, if_false,
      hsw]
  obtain ⟨hcase, hsw0⟩ := stripPortFallback_concat (f := f) hsw
  refine ⟨(stripPortFallback f).1, (stripPortFallback f).2, ?_, ?_⟩
  · rw [hstrip, postBracket_id hsw0]
  · rcases hcase with hcat | heq
    · rw [hcat] at hmem
      rcases List.mem_append.mp hmem with hh | ht
      · exact List.mem_append_left _ hh
      · rcases List.mem_cons.mp ht with hcolon | hp
        · exact absurd hcolon (by decide)
        · exact List.mem_append_right _ hp
    · rw [heq]
      simpa using hmem

theorem claim_C10_witness :
    ∃ h p, extractHostFromLine (str "a#b") = some (h, p) ∧ '#' ∈ h ++ p :=
  (claim_C10_hash_kept_in_bare_input_fields).1 (str "a#b") (by decide) (by decide)
    (by decide) (by decide) (by decide) (by decide) (by decide)

/-- C7 (counterexample): the field `a:x/` contains `/` (and no scheme) and
its synthetic parse `http://a:x/` fails entirely (invalid port `"x"`), yet
the field is not discarded: extraction falls back to bare host:port
splitting and returns `ok=true` with host `a`, port `x/`. -/
theorem claim_C7_counterexample_slash_field_not_discarded :
    containsStr (str "a:x/") (str "/") = true ∧
    containsStr (str "a:x/") (str "://") = false ∧
    urlParseHost (str "http://a:x/") = none ∧
    extractHostFromLine (str "a:x/") = some (str "a", str "x/") := by
  refine ⟨by decide, by decide, by decide, by decide⟩

/-- C7 (amended): only a field containing `://` is discarded when its URL
parse fails entirely (or yields an empty host); a scheme-less field
containing `/` whose synthetic `http://` parse fails or yields an empty
host is not discarded — extraction falls back to treating the field as a
bare `host[:port]`. -/
theorem claim_C7_url_parse_failure_discards_only_scheme_fields :
    (∀ f : Str, f ≠ [] → (∀ x ∈ f, isSpaceGo x = false) →
      startsWith f (str "#") = false →
      containsStr f (str "://") = true →
      (urlParseHost f = none ∨ urlParseHost f = some []) →
      extractHostFromLine f = none) ∧
    (∀ f : Str, f ≠ [] → (∀ x ∈ f, isSpaceGo x = false) →
      startsWith f (str "#") = false →
      containsStr f (str "://") = false →
      (startsWith f (str "[") && containsStr f (str "]")) = false →
      containsStr f (str "/") = true →
      (urlParseHost (str "http://" ++ f) = none ∨
        urlParseHost (str "http://" ++ f) = some []) →
      extractHostFromLine f = some (postBracket (stripPort f))) ∧
    extractHostFromLine (str "a:x/") = some (str "a", str "x/") := by
  refine ⟨?_, ?_, by decide⟩
  · intro f hne hns hsh hsc hurl
    have hie : f.isEmpty = false := by simpa [List.isEmpty_iff] using hne
    simp only [extractHostFromLine, trimSpace_of_no_space hns, hie, hsh,
      Bool.or_self, Bool.false_eq_true, if_false, fieldsGo_of_no_space hns hne,
      hsc, if_true]
    rcases hurl with h | h <;> simp [h]
  · intro f hne hns hsh hsc hbr hsl hurl
    have hie : f.isEmpty = false := by simpa [List.isEmpty_iff] using hne
    simp only [extractHostFromLine, trimSpace_of_no_space hns, hie, hsh,
      Bool.or_self, Bool.false_eq_true, if_false, fieldsGo_of_no_space hns hne,
      hsc, hbr, hsl, if_true]
    rcases hurl with h | h <;> simp [h]

theorem claim_C7_witness :
    extractHostFromLine (str "http://a:x") = none :=
  (claim_C7_url_parse_failure_discards_only_scheme_fields).1 (str "http://a:x")
    (by decide) (by decide) (by decide) (by decide) (Or.inl (by decide))

/-- C1 (counterexample): the line `.` extracts host `.`, which normalizes
to the empty string (an unparsable input host), and the line `#c` fails
extraction outright; with inversion requested neither line is emitted —
`processLines` skips them — contradicting the claim that such lines are
emitted under `-r`. -/
theorem claim_C1_counterexample_unparsable_line_not_emitted :
    extractHostFromLine (str ".") = some (str ".", []) ∧
    normalizeHost (str ".") = [] ∧
    processLines [str "."] [] true = [] ∧
    extractHostFromLine (str "#c") = none ∧
    processLines [str "#c"] [] true = [] := by
  refine ⟨by decide, by decide, by decide, by decide, by decide⟩

/-- C1 (amended): an input line whose host cannot be extracted, or whose
extracted host normalizes to the empty string, is skipped entirely: it is
not emitted in normal mode and not emitted under inversion either — it
contributes nothing to the output in both modes. -/
theorem claim_C1_unparsable_lines_skipped_in_both_modes :
    ∀ line scope reverse rest,
      (extractHostFromLine line = none ∨
        (∃ h p, extractHostFromLine line = some (h, p) ∧ normalizeHost h = [])) →
      processLines (line :: rest) scope reverse = processLines rest scope reverse := by
  intro line scope reverse rest hcase
  rcases hcase with hnone | ⟨h, p, hsome, hnorm⟩
  · rw [processLines, hnone]
  · rw [processLines, hsome]
    simp [hnorm]

theorem claim_C1_witness :
    processLines [str "."] [] true = processLines [] [] true :=
  claim_C1_unparsable_lines_skipped_in_both_modes (str ".") [] true []
    (Or.inr ⟨str ".", [], by decide, by decide⟩)

/-- C8 (counterexample): host normalization is not idempotent on every
input.  `normalizeHost` strips only a single trailing dot, so on `"a.."`
the first pass yields `"a."` and a second pass strips the remaining dot,
yielding `"a"`. -/
theorem claim_C8_counterexample_double_trailing_dot :
    normalizeHost (normalizeHost (str "a..")) ≠ normalizeHost (str "a..") := by
  decide

/-- C8 (amended): host normalization is idempotent on every input made of
ASCII, non-whitespace characters that does not end in `".."`:
`normalizeHost (normalizeHost h) = normalizeHost h` for all such `h`. -/
theorem claim_C8_normalize_idempotent_on_safe_inputs (h : Str)
    (hascii : ∀ c ∈ h, c.toNat < 128)
    (hnosp : ∀ c ∈ h, isSpaceGo c = false)
    (hdots : endsWith h (str "..") = false) :
    normalizeHost (normalizeHost h) = normalizeHost h := by
  have htr : trimSpace h = h := trimSpace_of_no_space hnosp
  cases hemp : h.isEmpty with
  | true =>
    have h0 : h = [] := by
      cases h with
      | nil => rfl
      | cons a t => simp at hemp
    rw [h0]
    rfl
  | false =>
    have hA' : ∀ c ∈ trimTrailing h (str "."), c.toNat < 128 :=
      fun c hc => hascii c (mem_of_mem_trimTrailing hc)
    have hN' : ∀ c ∈ trimTrailing h (str "."), isSpaceGo c = false :=
      fun c hc => hnosp c (mem_of_mem_trimTrailing hc)
    have hdot' : endsWith (trimTrailing h (str ".")) (str ".") = false :=
      trimTrailing_dot_not_endsWith hdots
    have hfirst : normalizeHost h =
        (match parseIP (trimTrailing h (str ".")) with
          | some ip => ipString ip
          | none => toLowerGo (trimTrailing h (str "."))) := by
      simp only [normalizeHost, htr, hemp, Bool.false_eq_true, if_false,
        idnaToASCII_ascii hA']
    cases hip : parseIP (trimTrailing h (str ".")) with
    | some ip =>
      rw [hfirst, hip]
      exact normalizeHost_ipString (parseIP_wf hip)
    | none =>
      rw [hfirst, hip]
      show normalizeHost ((trimTrailing h (str ".")).map lowerChar) =
        (trimTrailing h (str ".")).map lowerChar
      have hoA : ∀ c ∈ (trimTrailing h (str ".")).map lowerChar, c.toNat < 128 := by
        intro c hc
        obtain ⟨d, hd, rfl⟩ := List.mem_map.mp hc
        exact lowerChar_ascii (hA' d hd)
      have hoN : ∀ c ∈ (trimTrailing h (str ".")).map lowerChar, isSpaceGo c = false := by
        intro c hc
        obtain ⟨d, hd, rfl⟩ := List.mem_map.mp hc
        rw [isSpaceGo_lowerChar]
        exact hN' d hd
      have htr2 : trimSpace ((trimTrailing h (str ".")).map lowerChar) =
          (trimTrailing h (str ".")).map lowerChar := trimSpace_of_no_space hoN
      cases hoE : ((trimTrailing h (str ".")).map lowerChar).isEmpty with
      | true =>
        have ho : (trimTrailing h (str ".")).map lowerChar = [] := by
          cases hq : (trimTrailing h (str ".")).map lowerChar with
          | nil => rfl
          | cons a t2 =>
            rw [hq] at hoE
            simp at hoE
        rw [ho]
        rfl
      | false =>
        have hoDot : endsWith ((trimTrailing h (str ".")).map lowerChar) (str ".") = false := by
          cases hED : endsWith ((trimTrailing h (str ".")).map lowerChar) (str ".") with
          | false => rfl
          | true =>
            have hlast := endsWith_singleton_iff.mp hED
            rw [List.getLast?_map] at hlast
            cases hgl : (trimTrailing h (str ".")).getLast? with
            | none =>
              rw [hgl] at hlast
              exact absurd hlast (by simp)
            | some d =>
              rw [hgl] at hlast
              have hd : lowerChar d = '.' := by simpa using hlast
              have hd2 : d = '.' := (lowerChar_eq_iff_of_fixed (by decide) (by decide)).mp hd
              have hend : endsWith (trimTrailing h (str ".")) (str ".") = true :=
                endsWith_singleton_iff.mpr (by rw [hgl, hd2])
              rw [hend] at hdot'
              exact absurd hdot' (by decide)
        have hipO : parseIP ((trimTrailing h (str ".")).map lowerChar) = none := by
          rw [parseIP_map_lower]
          exact hip
        have hA2 : idnaToASCII ((trimTrailing h (str ".")).map lowerChar) =
            some ((trimTrailing h (str ".")).map lowerChar) := idnaToASCII_ascii hoA
        have hlow2 : ((trimTrailing h (str ".")).map lowerChar).map lowerChar =
            (trimTrailing h (str ".")).map lowerChar := toLowerGo_toLowerGo _
        simp only [normalizeHost, htr2, hoE, Bool.false_eq_true, if_false,
          trimTrailing_of_not_endsWith hoDot, hipO, hA2, toLowerGo, hlow2]

theorem claim_C8_witness :
    ((∀ c ∈ str "Example.COM.", c.toNat < 128) ∧
      (∀ c ∈ str "Example.COM.", isSpaceGo c = false) ∧
      endsWith (str "Example.COM.") (str "..") = false) ∧
    normalizeHost (normalizeHost (str "Example.COM.")) =
      normalizeHost (str "Example.COM.") :=
  ⟨⟨by decide, by decide, by decide⟩,
    claim_C8_normalize_idempotent_on_safe_inputs (str "Example.COM.")
      (by decide) (by decide) (by decide)⟩

end NScope
